import Mathlib

/-!
Shallow embedding of the pyfaros discovery/topology-reconciliation core
(`pyfaros/discover/discover.py`) and proofs about its behaviour.

Python objects become Lean structures; in-place mutation becomes explicit
state passing; Python exceptions become `Except PyErr`; Python `None` becomes
`Option`.  Back-references that Python installs on the iris objects
(`iris.rrh`, `iris.chain`, `iris.rrh_member` set by `RRH.__init__`) are
represented by the membership of the produced chain-group structures
themselves rather than by mutating the iris values.
-/

namespace Pyfaros

deriving instance DecidableEq for Except


/-- Python dict assignment `d[k] = v`: replace the value in place if the key is
present, otherwise append the binding at the end (insertion order preserved,
matching `dict`/`OrderedDict`). -/
def dictInsert {α β : Type} [DecidableEq α] : List (α × β) → α → β → List (α × β)
  | [], k, v => [(k, v)]
  | (k', v') :: rest, k, v =>
    if k' = k then (k', v) :: rest else (k', v') :: dictInsert rest k v

/-- Keep-first deduplication, modelling the `set(...)` build in
`_map_irises` (the set is immediately sorted, so iteration order is
irrelevant). -/
def setDedup {α : Type} [DecidableEq α] (l : List α) : List α :=
  l.foldl (fun acc x => if x ∈ acc then acc else acc ++ [x]) []

/-- Python dict lookup `d.get(k)`. -/
def dictLookup {α β : Type} [DecidableEq α] : List (α × β) → α → Option β
  | [], _ => none
  | (k', v') :: rest, k => if k' = k then some v' else dictLookup rest k

/-- Insert `x` after every already-placed element `y` with `le y x`; together
with `stableSort` this models Python's stable `sorted`. -/
def sortedInsert {α : Type} (le : α → α → Bool) (x : α) : List α → List α
  | [] => [x]
  | y :: ys => if le y x then y :: sortedInsert le x ys else x :: y :: ys

/-- Stable sort by a boolean `le`, modelling Python's `sorted(...)`. -/
def stableSort {α : Type} (le : α → α → Bool) (l : List α) : List α :=
  l.foldl (fun acc x => sortedInsert le x acc) []

/-- `str.split(":")`: split on every colon, keeping empty pieces. -/
def splitOnColon : List Char → List (List Char)
  | [] => [[]]
  | c :: rest =>
    if c = ':' then [] :: splitOnColon rest
    else
      match splitOnColon rest with
      | [] => [[c]]
      | h :: t => (c :: h) :: t

/-- Value of one hexadecimal digit, `none` for a non-digit. -/
def hexVal (c : Char) : Option Nat :=
  if '0' ≤ c ∧ c ≤ '9' then some (c.toNat - 48)
  else if 'a' ≤ c ∧ c ≤ 'f' then some (c.toNat - 87)
  else if 'A' ≤ c ∧ c ≤ 'F' then some (c.toNat - 55)
  else none

/-- Python `int(s, 16)` on a plain string of hex digits; `none` models the
`ValueError` on an empty or non-hex string.  (Python also accepts sign,
whitespace and an `0x` prefix; those never occur in the hardware addresses
this is applied to and are not modelled.) -/
def parseHex (l : List Char) : Option Nat :=
  if l.isEmpty then none
  else l.foldlM (fun acc c => (hexVal c).map fun v => acc * 16 + v) 0

/-- `HubRemote.afetch` fingerprint decode for one hardware address:
`int("".join(reversed(k[3::])), 16)` where `k = addr.split(":")`. -/
def macmatch (addr : List Char) : Option Nat :=
  parseHex (((splitOnColon addr).drop 3).reverse.flatten)

/-- `Remote.mac_to_uaa_id`: byte-reverse the low three bytes. -/
def mac_to_uaa_id (mac : Nat) : Nat :=
  (List.range 3).foldl (fun acc i => acc + ((mac >>> (i * 8)) % 256) <<< ((2 - i) * 8)) 0

/-- The contents of `_json["sfp"]["config"]["rrh"]` for a chain head: the
authoritative serial and member list, each key possibly absent. -/
structure SfpRRH where
  serial? : Option String
  chain? : Option (List String)
deriving DecidableEq

/-- State of one `IrisRemote` relevant to mapping and reconciliation.
`rrh_config` caches `_json.sfp.config.rrh` (set as soon as the HTTP fetch
succeeds); the integer fields are `None` until `afetch` reaches them. -/
structure Iris where
  serial : String
  last_mac : Option Nat
  uaa_id : Option Nat
  rrh_index : Option Int
  chain_index : Option Int
  rrh_head : Bool
  rrh_config : Option SfpRRH
  hub : Option String
  rrh_member : Option Bool
deriving DecidableEq

/-- A fresh `IrisRemote` as built by the constructor (before any fetch). -/
def Iris.fresh (serial : String) : Iris :=
  { serial := serial, last_mac := none, uaa_id := none, rrh_index := none,
    chain_index := none, rrh_head := false, rrh_config := none,
    hub := none, rrh_member := none }

/-- Result of a successful `RRH.__init__`: a validated chain. -/
structure RRHData where
  nodes : List Iris
  head : Iris
  serial : String
  chain : Int
  config_chain : List String
  config_correct : Bool
  error : Bool
deriving DecidableEq

/-- A chain group installed in a hub slot: either a validated chain (`RRH`)
or a degraded `Chain` (an ordered position→node dict with an error flag). -/
inductive ChainGroup where
  | rrh : RRHData → ChainGroup
  | chain : List (Option Int × Iris) → Bool → ChainGroup
deriving DecidableEq

/-- State of one `HubRemote`.  `chains` maps a slot index to the one-or-many
groups installed there (the code stores a single group until a second lands on
the same slot and then switches to a list; both are modelled as a list). -/
structure HubState where
  serial : String
  macmatches : List Nat
  chains : List (Option Int × List ChainGroup)
  error : Bool
  unpaired : List (Iris × List Iris)
  irises : List Iris
  irises_by_serial : List (String × Iris)
deriving DecidableEq

/-- A fresh `HubRemote` as built by the constructor. -/
def HubState.fresh (serial : String) (macmatches : List Nat) : HubState :=
  { serial := serial, macmatches := macmatches, chains := [], error := false,
    unpaired := [], irises := [], irises_by_serial := [] }

/-- The Python exceptions that can escape the embedded code. -/
inductive PyErr where
  | notAnRRH
  | assertionError (msg : String)
  | keyError (key : String)
  | attributeError (msg : String)
  | typeError (msg : String)
deriving DecidableEq

def LAST_POSSIBLE_CHAIN : Int := 7

def REFERENCE_NODE_CHAIN : List Int := [6]

/-- `chain_idx in HubRemote.REFERENCE_NODE_CHAIN` (false for `None`). -/
def isReference (c : Option Int) : Bool :=
  match c with
  | some v => REFERENCE_NODE_CHAIN.contains v
  | none => false

/-- The parts of an iris status document that `IrisRemote.afetch` reads:
`sklk_pl_eth/extra → gateway_addr`, `global.message_index`,
`global.chain_index` and `sfp.config.rrh`; each may be absent. -/
structure IrisStatusDoc where
  gateway_addr? : Option (List Char)
  message_index? : Option Int
  chain_index? : Option Int
  sfp_rrh? : Option SfpRRH
deriving DecidableEq

/-- `IrisRemote.afetch`.  The HTTP fetch attaches `_json` first (so the
`sfp.config.rrh` cache is populated even when a later field is missing); the
field extractions then run in order and the first failure aborts the method,
which logs and returns `None` (modelled by the `false` flag) leaving the
fields assigned so far in place. -/
def iris_afetch (iris : Iris) (doc : Option IrisStatusDoc) : Iris × Bool :=
  match doc with
  | none => (iris, false)
  | some doc =>
    let iris := { iris with rrh_config := doc.sfp_rrh? }
    match doc.gateway_addr?.bind parseHex with
    | none => (iris, false)
    | some mac =>
      let iris := { iris with last_mac := some mac, uaa_id := some (mac_to_uaa_id mac) }
      match doc.message_index? with
      | none => (iris, false)
      | some mi =>
        let iris := { iris with rrh_index := some (mi - 1) }
        match doc.chain_index? with
        | none => (iris, false)
        | some ci =>
          let iris := { iris with chain_index := some ci }
          let iris := { iris with
            rrh_head := match doc.sfp_rrh? with
              | some c => c.serial?.isSome
              | none => false }
          (iris, true)

/-- `HubRemote.afetch`: decode every value of `jtagblob/config → network` into
a fingerprint.  The comprehension is evaluated in full before `macmatches` is
assigned, so one bad address leaves the previous value in place and the fetch
returns an absent result. -/
def hub_afetch (hub : HubState) (doc : Option (List (List Char))) : HubState × Bool :=
  match doc with
  | none => (hub, false)
  | some addrs =>
    match addrs.mapM macmatch with
    | none => (hub, false)
    | some ms => ({ hub with macmatches := ms }, true)

/-- `RRH.get_heads`: the members whose fetched metadata carried a chain-head
configuration serial. -/
def RRH.get_heads (iris : List Iris) : List Iris :=
  iris.filter (fun x => x.rrh_head)

/-- `x.last_mac in hub.macmatches` (false when the fingerprint is `None`). -/
def macMatchesHub (macmatches : List Nat) (x : Iris) : Bool :=
  match x.last_mac with
  | some m => macmatches.contains m
  | none => false

/-- Ordering of `rrh_index` sort keys.  A `None` key never reaches the
comparison in a sort that returns: Python raises `TypeError` on any
comparison touching `None`, modelled by the guard in `sortByRRHIndexE`. -/
def optIntLe (a b : Option Int) : Bool :=
  match a, b with
  | some x, some y => x ≤ y
  | none, _ => true
  | some _, none => false

/-- `sorted(members, key=lambda x: x.rrh_index)`: stable sort.  `sorted`
compares keys pairwise and every comparison touching a `None` key raises
`TypeError` (`None < int`, `int < None` and `None < None` are all
unsupported); with two or more elements every element takes part in at least
one comparison, so the sort raises exactly when the list has at least two
members and some key is `None`. -/
def sortByRRHIndexE (l : List Iris) : Except PyErr (List Iris) :=
  if decide (2 ≤ l.length) && (l.any fun x => x.rrh_index.isNone) then
    if l.any fun x => x.rrh_index.isSome then
      .error (.typeError "not supported between instances of NoneType and int")
    else
      .error (.typeError "not supported between instances of NoneType and NoneType")
  else
    .ok (stableSort (fun a b => optIntLe a.rrh_index b.rrh_index) l)

/-- The `reduce`/`getattr` chain-index agreement check in `RRH.__init__`:
walk the sorted nodes, keeping the latest node while every consecutive pair
agrees on `chain_index`, and read `chain_index` off the survivor. -/
def chainAgreement (nodes : List Iris) : Option Int :=
  match nodes with
  | [] => none
  | n :: rest =>
    (rest.foldl
      (fun acc y =>
        match acc with
        | none => none
        | some a => if a.chain_index = y.chain_index then some y else none)
      (some n)).bind (fun last => last.chain_index)

/-- `RRH.__init__` on `members`.  `NotAnRRH` is thrown when the head's
configuration is falsy (no single head, missing or empty `sfp.config.rrh`);
the chain-index disagreement `assert` and the `config["serial"]` /
`config["chain"]` subscripts raise past the constructor. -/
def RRH_init (members : List Iris) : Except PyErr RRHData := do
  let heads := RRH.get_heads members
  let head? := if heads.length = 1 then heads.head? else none
  let rrhError := head?.isNone
  match head? with
  | none => .error .notAnRRH
  | some head =>
    match head.rrh_config with
    | none => .error .notAnRRH
    | some config =>
      if config.serial?.isNone && config.chain?.isNone then
        .error .notAnRRH
      else do
        let nodes ← sortByRRHIndexE members
        match config.serial? with
        | none => .error (.keyError "serial")
        | some serial =>
          match chainAgreement nodes with
          | none =>
            .error (.assertionError
              ("Disagreement amongst RRH " ++ serial ++ " about what chain we are on."))
          | some chain =>
            match config.chain? with
            | none => .error (.keyError "chain")
            | some config_chain =>
              let config_correct :=
                ((nodes.map fun x => x.serial).zip config_chain).all
                  fun p => decide (p.1 = p.2)
              .ok { nodes := nodes, head := head, serial := serial, chain := chain,
                    config_chain := config_chain, config_correct := config_correct,
                    error := rrhError }

/-- `RRH.get_config_from_head(head).get("chain", [])` on an actual head
object: `AttributeError` when `sfp.config.rrh` is missing (`None.get`),
otherwise the `"chain"` entry or `[]`. -/
def headChainList (head : Iris) : Except PyErr (List String) :=
  match head.rrh_config with
  | none => .error (.attributeError "NoneType object has no attribute get")
  | some c => .ok (c.chain?.getD [])

/-- `node.rrh_index < 0`: Python raises `TypeError` when the index is still
`None`. -/
def negCheck (i : Option Int) : Except PyErr Bool :=
  match i with
  | none => .error (.typeError "not supported between instances of NoneType and int")
  | some v => .ok (decide (v < 0))

/-- One pass of the inner loop of `filter_chain_for_bad_indexes`: scan a node,
flag a negative index, and route the node to the head's group when its serial
matches, otherwise to the surviving chain. -/
def splitStep (serial : String) (st : List Iris × List Iris × Bool) (node : Iris) :
    Except PyErr (List Iris × List Iris × Bool) := do
  let (nodes, new_chain, err) := st
  let neg ← negCheck node.rrh_index
  let err := err || neg
  if node.serial = serial then
    .ok (nodes ++ [node], new_chain, err)
  else
    .ok (nodes, new_chain ++ [node], err)

/-- One iteration of the `for serial in ...` loop of
`filter_chain_for_bad_indexes`: scan the whole surviving chain for this
configuration serial. -/
def scanSerial (st : List Iris × List Iris × Bool) (serial : String) :
    Except PyErr (List Iris × List Iris × Bool) :=
  st.2.1.foldlM (splitStep serial) (st.1, ([] : List Iris), st.2.2)

/-- One iteration of the `for head in heads` loop of
`filter_chain_for_bad_indexes`: pull the members named in this head's
configuration list out of the surviving chain into a group of their own. -/
def scanHead (st : List Iris × List (List Iris) × Bool) (head : Iris) :
    Except PyErr (List Iris × List (List Iris) × Bool) := do
  let cfg ← headChainList head
  let r ← cfg.foldlM scanSerial (([] : List Iris), st.1, st.2.2)
  pure (r.2.1, st.2.1 ++ [r.1], r.2.2)

/-- `HubRemote.filter_chain_for_bad_indexes`: the reference chain passes
through unfiltered; otherwise each head candidate pulls the members named in
its configuration list out of the group, negative indexes seen during those
scans set the error flag, and any remainder forms one more group. -/
def filter_chain_for_bad_indexes (chain_index : Option Int) (this_chain : List Iris) :
    Except PyErr (List (List Iris) × Bool) :=
  if isReference chain_index then
    .ok ([this_chain], false)
  else do
    let (tc, rrhs, error) ← (RRH.get_heads this_chain).foldlM scanHead
      (this_chain, ([] : List (List Iris)), false)
    let rrhs := if tc.isEmpty then rrhs else rrhs ++ [tc]
    pure (rrhs, error)

/-- The degraded `Chain` position→node dict: `chain[iris.rrh_index] = iris`
over the nodes in order. -/
def buildPosMap (nodes : List Iris) : List (Option Int × Iris) :=
  nodes.foldl (fun m iris => dictInsert m iris.rrh_index iris) []

def groupError : ChainGroup → Bool
  | .rrh r => r.error
  | .chain _ e => e

/-- `self.chains[chain_idx] = chain`, switching the slot to a one-or-many
list on collision (both shapes are modelled as a list of groups). -/
def installChain (chains : List (Option Int × List ChainGroup)) (key : Option Int)
    (g : ChainGroup) : List (Option Int × List ChainGroup) :=
  match dictLookup chains key with
  | none => chains ++ [(key, [g])]
  | some gs => dictInsert chains key (gs ++ [g])

/-- The `try RRH(...) except NotAnRRH` part of `create_chain`: outside the
reference slot an `RRH` is attempted and `NotAnRRH` (only) is absorbed by
leaving `chain = None` with the error flag raised; any other exception
escapes.  Returns the optional validated group and the (possibly updated)
error flag. -/
def chainAttempt (chain_idx : Option Int) (nodes : List Iris) (error : Bool) :
    Except PyErr (Option ChainGroup × Bool) :=
  if ¬ isReference chain_idx then
    match RRH_init nodes with
    | .ok r => .ok (some (ChainGroup.rrh { r with error := error }), error)
    | .error .notAnRRH => .ok (none, true)
    | .error e => .error e
  else .ok (none, error)

/-- `HubRemote.create_chain`: empty groups are skipped; then the `RRH`
attempt (`chainAttempt`) either yields a validated group or falls back to a
degraded `Chain`; the group is installed and its error flag infects the
hub. -/
def create_chain (hub : HubState) (chain_idx : Option Int) (nodes : List Iris)
    (error : Bool) : Except PyErr HubState :=
  if nodes.isEmpty then .ok hub
  else do
    let y ← chainAttempt chain_idx nodes error
    let group :=
      match y.1 with
      | some g => g
      | none => ChainGroup.chain (buildPosMap nodes) y.2
    .ok { hub with chains := installChain hub.chains chain_idx group,
                   error := hub.error || groupError group }

/-- `sorted(list({x.chain_index for x in irises}))`: deduplicate, then sort;
Python raises `TypeError` when the set mixes `None` with ints. -/
def sortChainIds (ids : List (Option Int)) : Except PyErr (List (Option Int)) :=
  let dedup := setDedup ids
  if (dedup.any fun c => c.isNone) && (dedup.any fun c => c.isSome) then
    .error (.typeError "not supported between instances of NoneType and int")
  else if dedup.all fun c => c.isNone then .ok dedup
  else .ok ((stableSort (fun a b => decide (a ≤ b)) (dedup.filterMap id)).map some)

/-- The trailing loop of `_map_irises`: re-emit every unpaired bucket entry
as a chain at slots `LAST_POSSIBLE_CHAIN`, `LAST_POSSIBLE_CHAIN + 1`, …,
flagging the hub. -/
def processUnpaired (hub : HubState) : Except PyErr HubState := do
  let st ← hub.unpaired.foldlM
    (fun (st : HubState × Int) entry => do
      let hub ← create_chain { st.1 with error := true } (some st.2) entry.2 true
      pure (hub, st.2 + 1))
    (hub, LAST_POSSIBLE_CHAIN)
  pure st.1

/-- One iteration of the `for chain in sorted(...)` loop of `_map_irises`:
collect and sort this chain-identifier group, run the bad-index filter, and
install every resulting candidate group. -/
def processChain (myIrises : List Iris) (hub : HubState) (chain : Option Int) :
    Except PyErr HubState := do
  let grp := myIrises.filter fun x => decide (x.chain_index = chain)
  let this_chain ← sortByRRHIndexE grp
  let fe ← filter_chain_for_bad_indexes chain this_chain
  let hub := if fe.2 then { hub with error := true } else hub
  fe.1.foldlM (fun hub rrh => create_chain hub chain rrh fe.2) hub

/-- `HubRemote._map_irises`: claim the irises whose fingerprint is in
`macmatches` (the hub-scoped re-fetch re-runs `afetch` on the same status
documents and leaves the iris states unchanged, so it is a no-op here), reset
the unpaired bucket, then reconcile each chain-identifier group and finally
re-emit the unpaired bucket. -/
def map_irises (hub : HubState) (irises : List Iris) : Except PyErr HubState := do
  let myIrises := irises.filter (macMatchesHub hub.macmatches)
  let hub := { hub with
    irises := myIrises
    irises_by_serial := myIrises.foldl (fun m i => dictInsert m i.serial i) []
    unpaired := [] }
  let chainIds ← sortChainIds (myIrises.map fun x => x.chain_index)
  let hub ← chainIds.foldlM (processChain myIrises) hub
  processUnpaired hub

/-- `setdefault(head, []).append(iris)` on the unpaired bucket. -/
def unpairedAppend (u : List (Iris × List Iris)) (head : Iris) (iris : Iris) :
    List (Iris × List Iris) :=
  match dictLookup u head with
  | none => u ++ [(head, [iris])]
  | some l => dictInsert u head (l ++ [iris])

/-- `HubRemote.iris_lookup`. -/
def iris_lookup (hub : HubState) (nodes : List String) : List Iris :=
  nodes.filterMap fun serial => dictLookup hub.irises_by_serial serial

/-- `HubRemote.remove_nodes_from_chain`: push the members named in a head's
configuration into the unpaired bucket.  No code in the repository calls
this method. -/
def remove_nodes_from_chain (hub : HubState) (head : Iris) :
    Except PyErr (HubState × List String) := do
  let nodes ← headChainList head
  let found := iris_lookup hub nodes
  pure ({ hub with unpaired := found.foldl (fun u i => unpairedAppend u head i) hub.unpaired },
        nodes)

/-- `IrisRemote._map_to_hub`: scan all hubs; a second fingerprint match
raises `AssertionError` naming both hubs; afterwards `rrh_member` defaults
to false. -/
def map_to_hub (iris : Iris) (hubs : List HubState) : Except PyErr Iris := do
  let iris ← hubs.foldlM
    (fun ir hub =>
      if macMatchesHub hub.macmatches ir then
        match ir.hub with
        | some prev =>
          .error (.assertionError ("Remapping iris from " ++ prev ++ " to " ++ hub.serial))
        | none => .ok { ir with hub := some hub.serial }
      else .ok ir)
    iris
  pure { iris with rrh_member := some (iris.rrh_member.getD false) }

/-- The mapping stage of `Discover.__init__` after the fetch waves:
`hub._map_irises(irises)` for every hub, then `iris._map_to_hub(hubs)` for
every iris; any exception aborts the run. -/
def discoverMap (hubs : List HubState) (irises : List Iris) :
    Except PyErr (List HubState × List Iris) := do
  let hubs ← hubs.mapM fun h => map_irises h irises
  let irises ← irises.mapM fun i => map_to_hub i hubs
  pure (hubs, irises)

/-- One raw enumeration descriptor: the `serial` key (possibly absent) plus
an opaque stand-in for the remaining key/value pairs. -/
structure SoapyDict where
  serial? : Option String
  payload : Nat
deriving DecidableEq

/-- One step of the enumeration loop in `Discover.__init__`:
`if "serial" in found and found["serial"] not in soapy_enumerations:
soapy_enumerations[found["serial"]] = found`. -/
def dedupStep (acc : List (String × SoapyDict)) (found : SoapyDict) :
    List (String × SoapyDict) :=
  match found.serial? with
  | none => acc
  | some s => if acc.any (fun p => p.1 = s) then acc else acc ++ [(s, found)]

/-- The whole enumeration/deduplication loop over all passes. -/
def soapyEnumerations (passes : List (List SoapyDict)) : List (String × SoapyDict) :=
  passes.flatten.foldl dedupStep []

/-- The argument classification of `Discover.Sortings.POWER_DEPENDENCY`. -/
inductive SortItem where
  | iris (rrh_index : Option Int) (chain_index : Option Int)
  | hub
  | other
deriving DecidableEq

/-- `Discover.Sortings.POWER_DEPENDENCY`: the sort key
(`getattr(..., 0) or 0` collapses both a missing attribute and `None`
to `0`). -/
def POWER_DEPENDENCY : SortItem → List Int
  | .iris i c => [0 - c.getD 0, 0 - i.getD 0]
  | .hub => [1, 0]
  | .other => [2, 0]

/-- Python list comparison `a < b` (lexicographic with the prefix rule). -/
def pyListLt : List Int → List Int → Bool
  | [], [] => false
  | [], _ :: _ => true
  | _ :: _, [] => false
  | a :: as_, b :: bs => if a < b then true else if b < a then false else pyListLt as_ bs

/-- An element yielded by a `walk` traversal. -/
inductive Entity where
  | iris : Iris → Entity
  | rrhGroup : RRHData → Entity
  | chainGroup : List (Option Int × Iris) → Entity
  | hubEnt : HubState → Entity
deriving DecidableEq

/-- `Remote.walk` (inherited by `IrisRemote`): yield only the device itself,
at every depth. -/
def irisWalk (i : Iris) (_depth : Option Int) : List Entity :=
  [.iris i]

/-- `depth - 1 if depth is not None else None`. -/
def decrDepth : Option Int → Option Int
  | none => none
  | some d => some (d - 1)

/-- `RRH.walk`: members first (yielded directly, not recursively), then the
validated chain itself; at depth 0 only the chain itself. -/
def rrhWalk (r : RRHData) (depth : Option Int) : List Entity :=
  if depth ≠ some 0 then (r.nodes.map .iris) ++ [.rrhGroup r] else [.rrhGroup r]

/-- `Chain.walk`: yield the member nodes in insertion order; the group itself
is never yielded and the depth argument is ignored. -/
def chainWalk (m : List (Option Int × Iris)) (_depth : Option Int) : List Entity :=
  m.map fun p => .iris p.2

def groupWalk (g : ChainGroup) (depth : Option Int) : List Entity :=
  match g with
  | .rrh r => rrhWalk r depth
  | .chain m _ => chainWalk m depth

/-- `HubRemote.walk`: at non-zero depth, walk every group of every slot in
order with the depth decremented, then yield the hub itself. -/
def hubWalk (h : HubState) (depth : Option Int) : List Entity :=
  if depth ≠ some 0 then
    (h.chains.map fun p => (p.2.map fun g => groupWalk g (decrDepth depth)).flatten).flatten
      ++ [.hubEnt h]
  else [.hubEnt h]

/-- The members of a chain group (for an `RRH`, its sorted nodes; for a
degraded `Chain`, the values of its position map). -/
def groupMembers : ChainGroup → List Iris
  | .rrh r => r.nodes
  | .chain m _ => m.map fun p => p.2

def ChainGroup.isRRH : ChainGroup → Bool
  | .rrh _ => true
  | .chain _ _ => false

/-- A serial appears somewhere in a hub's chain-slot mapping. -/
def irisInChains (serial : String) (chains : List (Option Int × List ChainGroup)) : Bool :=
  chains.any fun p => p.2.any fun g => (groupMembers g).any fun x => x.serial = serial

/-- A fully well-formed fetched iris: fingerprint and indexes set, and when it
reports as a head, its configuration carries both the serial and the member
list (the spec's "well-formed chain-head configuration block"). -/
def Iris.wellFetched (i : Iris) : Bool :=
  i.last_mac.isSome && i.rrh_index.isSome && i.chain_index.isSome &&
    (if i.rrh_head then
      match i.rrh_config with
      | some c => c.serial?.isSome && c.chain?.isSome
      | none => false
     else true)

/-- The negative-position test `node.rrh_index < 0` as evaluated on a node
whose index is set (with an unset index collapsed to `0`; the code raises
`TypeError` there instead, so the two never disagree on a scanned node). -/
def negIdx (x : Iris) : Bool :=
  decide (x.rrh_index.getD 0 < 0)

/-- The head candidate's authoritative member list is non-empty (the only
situation in which `filter_chain_for_bad_indexes` scans the group). -/
def cfgNonempty (h : Iris) : Bool :=
  match h.rrh_config with
  | some c => !(c.chain?.getD []).isEmpty
  | none => false

/-- Fallback alternative on options (used to state the first-seen-wins
dedup property). -/
def oalt {α : Type} (a b : Option α) : Option α :=
  match a with
  | some x => some x
  | none => b

/-- Whether the embedded computation succeeded (Python: no exception raised). -/
def isOkB {e a : Type} : Except e a → Bool
  | .ok _ => true
  | .error _ => false

/-- Entity `a` is yielded (strictly) before entity `b` in a traversal. -/
def yieldsBefore (l : List Entity) (a b : Entity) : Prop :=
  List.Sublist [a, b] l

instance (l : List Entity) (a b : Entity) : Decidable (yieldsBefore l a b) := by
  unfold yieldsBefore; infer_instance

/-! Concrete devices and hubs used in the counterexamples and witnesses.
An `Iris` literal lists: serial, last_mac, uaa_id, rrh_index, chain_index,
rrh_head, rrh_config, hub, rrh_member. -/

def cx3node : Iris := ⟨"A", some 1, none, some 0, some 0, true, some ⟨some "R", some ["A", "B"]⟩, none, none⟩

def w3node : Iris := ⟨"A", some 1, none, some 0, some 0, true, some ⟨some "R", some ["A"]⟩, none, none⟩

def w3rrh : RRHData := ⟨[w3node], w3node, "R", 0, ["A"], true, false⟩

def cx6H : Iris := ⟨"H", some 1, none, some 0, some 3, true, some ⟨some "R", some []⟩, none, none⟩

def cx6M : Iris := ⟨"M", some 2, none, some (-1), some 3, false, none, none, none⟩

def cx6hub : HubState := HubState.fresh "FH" [1, 2]

def w6H : Iris := ⟨"H", some 1, none, some 0, some 3, true, some ⟨some "R", some ["H"]⟩, none, none⟩

def w6M : Iris := ⟨"M", some 2, none, some (-1), some 3, false, none, none, none⟩

def w6hub : HubState := HubState.fresh "FH" [1, 2]

def cx5doc : IrisStatusDoc := ⟨some ['0', 'a'], none, none, none⟩

def cx5hub : HubState := HubState.fresh "FH" [10]

def cx5doc2 : IrisStatusDoc := ⟨some ['0', 'b'], none, none, none⟩

def cx5hub2 : HubState := HubState.fresh "FH" [10, 11]

def w5x : Iris := Iris.fresh "X"

def w5hub : HubState := HubState.fresh "FH" [1]

def cx2H : Iris := ⟨"H", some 1, none, some 0, some 0, true, some ⟨some "R", none⟩, none, none⟩

def cx2hub : HubState := HubState.fresh "FH" [1]

def w2iris : Iris := ⟨"I", some 5, none, none, none, false, none, none, none⟩

def w2h1 : HubState := HubState.fresh "HA" [5]

def w2h2 : HubState := HubState.fresh "HB" [5]

def w2wfiris : Iris := ⟨"W", some 1, none, some 0, some 0, true, some ⟨some "R", some ["W"]⟩, none, none⟩

def w2hub : HubState := HubState.fresh "FH" [1]

def c1H1 : Iris := ⟨"H1", some 1, none, some 0, some 3, true, some ⟨some "R1", some ["H1"]⟩, none, none⟩

def c1H2 : Iris := ⟨"H2", some 2, none, some 1, some 3, true, some ⟨some "R2", some ["H2", "M"]⟩, none, none⟩

def c1M : Iris := ⟨"M", some 3, none, some 2, some 3, false, none, none, none⟩

def c1hub : HubState := HubState.fresh "FH" [1, 2, 3]

def w1n : Iris := ⟨"N", some 1, none, some 0, some 0, false, none, none, none⟩

def w1hub : HubState := HubState.fresh "FH" [1]

def w8ref : Iris := ⟨"R6", some 1, none, some 0, some 6, false, none, none, none⟩

def w8hub : HubState := HubState.fresh "FH" [1]

def w8x : Iris := Iris.fresh "X8"

def cx10R : Iris := ⟨"R", none, none, some 0, none, false, none, none, none⟩

def cx10hub : HubState :=
  { HubState.fresh "FH" [] with chains := [(some 6, [ChainGroup.chain [(some 0, cx10R)] false])] }

def w10n : Iris := ⟨"N", some 1, none, some 0, some 0, false, none, none, none⟩

def w10rrh : RRHData := ⟨[w10n], w10n, "R", 0, ["N"], true, false⟩

def w10hub : HubState :=
  { HubState.fresh "FH" [] with chains := [(some 0, [ChainGroup.rrh w10rrh])] }

/-! ## Lemmas about the address-fingerprint decode -/

theorem splitOnColon_no_colon (x : List Char) (h : ':' ∉ x) : splitOnColon x = [x] := by
  induction x with
  | nil => rfl
  | cons c rest ih =>
    have hc : c ≠ ':' := fun hc => h (hc ▸ List.mem_cons_self c rest)
    have hrest : ':' ∉ rest := fun hr => h (List.mem_cons_of_mem c hr)
    simp only [splitOnColon, if_neg hc, ih hrest]

theorem splitOnColon_append (x y : List Char) (h : ':' ∉ x) :
    splitOnColon (x ++ ':' :: y) = x :: splitOnColon y := by
  induction x with
  | nil => simp [splitOnColon]
  | cons c rest ih =>
    have hc : c ≠ ':' := fun hc => h (hc ▸ List.mem_cons_self c rest)
    have hrest : ':' ∉ rest := fun hr => h (List.mem_cons_of_mem c hr)
    have := ih hrest
    simp only [List.cons_append, splitOnColon, if_neg hc, List.append_eq, this]

theorem hexVal_ne_colon {c : Char} {v : Nat} (h : hexVal c = some v) : c ≠ ':' := by
  intro hc
  subst hc
  simp [hexVal] at h

/-- C4: the hub fingerprint decode is a pure function of the trailing three
octets of an `aa:bb:cc:dd:ee:ff`-style hardware address: with trailing octet
pairs `[a, b, c]` the decoded fingerprint is the integer whose hex digits are
`c`, `b`, `a` concatenated in that order
(`c * 2^16 + b * 2^8 + a` for two-hex-digit octets). -/
theorem C4_fingerprint_decode (o0 o1 o2 : List Char) (a1 a2 b1 b2 c1 c2 : Char)
    (va1 va2 vb1 vb2 vc1 vc2 : Nat)
    (h0 : ':' ∉ o0) (h1 : ':' ∉ o1) (h2 : ':' ∉ o2)
    (ha1 : hexVal a1 = some va1) (ha2 : hexVal a2 = some va2)
    (hb1 : hexVal b1 = some vb1) (hb2 : hexVal b2 = some vb2)
    (hc1 : hexVal c1 = some vc1) (hc2 : hexVal c2 = some vc2) :
    macmatch (o0 ++ ':' :: (o1 ++ ':' :: (o2 ++ ':' :: ([a1, a2] ++ ':' :: ([b1, b2] ++ ':' :: [c1, c2])))))
      = some ((vc1 * 16 + vc2) * 2 ^ 16 + (vb1 * 16 + vb2) * 2 ^ 8 + (va1 * 16 + va2)) := by
  have hna : ':' ∉ [a1, a2] := by
    intro hmem
    rcases List.mem_pair.mp hmem with h | h
    · exact hexVal_ne_colon ha1 h.symm
    · exact hexVal_ne_colon ha2 h.symm
  have hnb : ':' ∉ [b1, b2] := by
    intro hmem
    rcases List.mem_pair.mp hmem with h | h
    · exact hexVal_ne_colon hb1 h.symm
    · exact hexVal_ne_colon hb2 h.symm
  have hnc : ':' ∉ [c1, c2] := by
    intro hmem
    rcases List.mem_pair.mp hmem with h | h
    · exact hexVal_ne_colon hc1 h.symm
    · exact hexVal_ne_colon hc2 h.symm
  unfold macmatch
  rw [splitOnColon_append _ _ h0, splitOnColon_append _ _ h1, splitOnColon_append _ _ h2,
      splitOnColon_append _ _ hna, splitOnColon_append _ _ hnb, splitOnColon_no_colon _ hnc]
  simp only [List.drop, List.reverse_cons, List.reverse_nil, List.nil_append, List.cons_append,
    List.flatten, List.append_nil]
  simp [parseHex, List.foldlM, ha1, ha2, hb1, hb2, hc1, hc2]
  ring

/-- Witness for C4 at the address `aa:bb:cc:dd:ee:ff`. -/
theorem C4_fingerprint_decode_witness :
    macmatch (['a', 'a'] ++ ':' :: (['b', 'b'] ++ ':' :: (['c', 'c'] ++ ':' :: (['d', 'd'] ++ ':' :: (['e', 'e'] ++ ':' :: ['f', 'f'])))))
      = some 16772829 := by
  have h := C4_fingerprint_decode ['a', 'a'] ['b', 'b'] ['c', 'c'] 'd' 'd' 'e' 'e' 'f' 'f'
    13 13 14 14 15 15 (by decide) (by decide) (by decide)
    (by decide) (by decide) (by decide) (by decide) (by decide) (by decide)
  simpa using h

/-! ## The power-dependency sort key -/

theorem pyListLt_pair (x1 x2 y1 y2 : Int) :
    (pyListLt [x1, x2] [y1, y2] = true) ↔ (x1 < y1 ∨ (x1 = y1 ∧ x2 < y2)) := by
  simp only [pyListLt]
  split_ifs with h1 h2 h3 h4 <;> simp_all <;> omega

/-- C7 counterexample: a chain member reporting `chain_index = -1` at
position 0 receives the key `[1, 0]`, equal to the hub key, so it does not
sort strictly before a hub. -/
theorem C7_power_dependency_counterexample :
    pyListLt (POWER_DEPENDENCY (.iris (some 0) (some (-1)))) (POWER_DEPENDENCY .hub) = false := by
  decide

/-- C7 amended: the key comparison is total (trichotomous) on the keys; a
deeper member of the same chain sorts strictly before a shallower one
unconditionally; and a chain member sorts strictly before every hub whenever
its effective chain identifier is nonnegative (a negative reported
`chain_index` breaks this, as the counterexample shows). -/
theorem C7_power_dependency_order (a b : SortItem) (i1 c1 i2 c2 i c : Option Int) :
    (pyListLt (POWER_DEPENDENCY a) (POWER_DEPENDENCY b) = true ∨
      POWER_DEPENDENCY a = POWER_DEPENDENCY b ∨
      pyListLt (POWER_DEPENDENCY b) (POWER_DEPENDENCY a) = true) ∧
    (c1.getD 0 = c2.getD 0 → i2.getD 0 < i1.getD 0 →
      pyListLt (POWER_DEPENDENCY (.iris i1 c1)) (POWER_DEPENDENCY (.iris i2 c2)) = true) ∧
    (0 ≤ c.getD 0 →
      pyListLt (POWER_DEPENDENCY (.iris i c)) (POWER_DEPENDENCY .hub) = true) := by
  refine ⟨?_, ?_, ?_⟩
  · cases a <;> cases b <;>
      simp only [POWER_DEPENDENCY, pyListLt_pair, List.cons.injEq, and_true] <;>
      first
      | omega
      | tauto
  · intro hch hidx
    rw [POWER_DEPENDENCY, POWER_DEPENDENCY, pyListLt_pair]
    omega
  · intro hc
    rw [POWER_DEPENDENCY, POWER_DEPENDENCY, pyListLt_pair]
    omega

/-- Witness for C7 at concrete items: two members of chain 2 at depths 3 and
1, and a member of chain 0 against a hub. -/
theorem C7_power_dependency_order_witness :
    (pyListLt (POWER_DEPENDENCY (.iris (some 3) (some 2))) (POWER_DEPENDENCY (.iris (some 1) (some 2))) = true) ∧
    (pyListLt (POWER_DEPENDENCY (.iris (some 0) (some 0))) (POWER_DEPENDENCY .hub) = true) := by
  exact ⟨(C7_power_dependency_order SortItem.hub SortItem.hub (some 3) (some 2) (some 1) (some 2)
            (some 0) (some 0)).2.1 (by decide) (by decide),
         (C7_power_dependency_order SortItem.hub SortItem.hub (some 3) (some 2) (some 1) (some 2)
            (some 0) (some 0)).2.2 (by decide)⟩

/-! ## Enumeration deduplication -/

theorem find?_append_left {α : Type} (p : α → Bool) (l₁ l₂ : List α) (e : α)
    (h : l₁.find? p = some e) : (l₁ ++ l₂).find? p = some e := by
  induction l₁ with
  | nil => simp [List.find?] at h
  | cons a l ih =>
    rw [List.cons_append]
    rw [List.find?_cons] at h ⊢
    cases hp : p a with
    | true => simpa [hp] using h
    | false =>
      simp only [hp] at h ⊢
      exact ih h

theorem find?_append_none {α : Type} (p : α → Bool) (l₁ l₂ : List α)
    (h : l₁.find? p = none) : (l₁ ++ l₂).find? p = l₂.find? p := by
  induction l₁ with
  | nil => simp
  | cons a l ih =>
    rw [List.find?_cons] at h
    cases hp : p a with
    | true => simp [hp] at h
    | false =>
      simp only [hp] at h
      rw [List.cons_append, List.find?_cons, hp]
      exact ih h

theorem dedupStep_no_serial (acc : List (String × SoapyDict)) (d : SoapyDict)
    (h : d.serial? = none) : dedupStep acc d = acc := by
  unfold dedupStep
  rw [h]

theorem dedupStep_seen (acc : List (String × SoapyDict)) (d : SoapyDict) (s' : String)
    (h : d.serial? = some s') (hany : acc.any (fun p => decide (p.1 = s')) = true) :
    dedupStep acc d = acc := by
  unfold dedupStep
  rw [h]
  simp [hany]

theorem dedupStep_new (acc : List (String × SoapyDict)) (d : SoapyDict) (s' : String)
    (h : d.serial? = some s') (hany : acc.any (fun p => decide (p.1 = s')) = false) :
    dedupStep acc d = acc ++ [(s', d)] := by
  unfold dedupStep
  rw [h]
  simp [hany]

theorem dedupStep_keeps (acc : List (String × SoapyDict)) (d : SoapyDict) (s : String)
    (e : String × SoapyDict) (h : acc.find? (fun p => decide (p.1 = s)) = some e) :
    (dedupStep acc d).find? (fun p => decide (p.1 = s)) = some e := by
  cases hds : d.serial? with
  | none => rw [dedupStep_no_serial acc d hds]; exact h
  | some s' =>
    cases hany : acc.any (fun p => decide (p.1 = s')) with
    | true => rw [dedupStep_seen acc d s' hds hany]; exact h
    | false =>
      rw [dedupStep_new acc d s' hds hany]
      exact find?_append_left _ _ _ _ h

theorem dedup_fold_keeps (l : List SoapyDict) (acc : List (String × SoapyDict)) (s : String)
    (e : String × SoapyDict) (h : acc.find? (fun p => decide (p.1 = s)) = some e) :
    (l.foldl dedupStep acc).find? (fun p => decide (p.1 = s)) = some e := by
  induction l generalizing acc with
  | nil => exact h
  | cons d l ih =>
    rw [List.foldl_cons]
    exact ih _ (dedupStep_keeps acc d s e h)

theorem dedup_fold_find (l : List SoapyDict) (acc : List (String × SoapyDict)) (s : String) :
    ((l.foldl dedupStep acc).find? (fun p => decide (p.1 = s))).map (fun p => p.2)
      = oalt ((acc.find? (fun p => decide (p.1 = s))).map (fun p => p.2))
          (l.find? (fun d => decide (d.serial? = some s))) := by
  induction l generalizing acc with
  | nil =>
    cases h : acc.find? (fun p => decide (p.1 = s)) <;> simp [oalt, h, List.find?]
  | cons d l ih =>
    rw [List.foldl_cons]
    cases hacc : acc.find? (fun p => decide (p.1 = s)) with
    | some e =>
      have h1 := dedup_fold_keeps l _ s e (dedupStep_keeps acc d s e hacc)
      rw [h1]
      simp [oalt]
    | none =>
      have hform : (dedupStep acc d).find? (fun p => decide (p.1 = s))
          = if d.serial? = some s then some (s, d) else none := by
        cases hds : d.serial? with
        | none =>
          rw [dedupStep_no_serial acc d hds, hacc]
          simp
        | some s' =>
          cases hany : acc.any (fun p => decide (p.1 = s')) with
          | true =>
            -- the serial was seen before, so it cannot be the one acc lacks
            rw [dedupStep_seen acc d s' hds hany, hacc]
            have hss : s' ≠ s := by
              intro hss
              subst hss
              rcases List.any_eq_true.mp hany with ⟨p, hp, hps⟩
              have := List.find?_eq_none.mp hacc p hp
              simp_all
            simp [hss]
          | false =>
            rw [dedupStep_new acc d s' hds hany, find?_append_none _ _ _ hacc]
            by_cases hss : s' = s
            · subst hss
              simp [List.find?]
            · simp [List.find?, hss, Option.some.injEq]
      rw [ih, hform]
      by_cases hds : d.serial? = some s
      · rw [if_pos hds, List.find?_cons_of_pos _ (by simp [hds])]
        simp [oalt]
      · rw [if_neg hds, List.find?_cons_of_neg _ (by simp [hds])]

theorem dedup_fold_sound (l : List SoapyDict) (acc : List (String × SoapyDict))
    (p : String × SoapyDict) (hp : p ∈ l.foldl dedupStep acc) :
    p ∈ acc ∨ (p.2 ∈ l ∧ p.2.serial? = some p.1) := by
  induction l generalizing acc with
  | nil => exact Or.inl hp
  | cons d l ih =>
    rw [List.foldl_cons] at hp
    rcases ih _ hp with hmem | ⟨hl, hs⟩
    · cases hds : d.serial? with
      | none =>
        rw [dedupStep_no_serial acc d hds] at hmem
        exact Or.inl hmem
      | some s' =>
        cases hany : acc.any (fun q => decide (q.1 = s')) with
        | true =>
          rw [dedupStep_seen acc d s' hds hany] at hmem
          exact Or.inl hmem
        | false =>
          rw [dedupStep_new acc d s' hds hany] at hmem
          rcases List.mem_append.mp hmem with h | h
          · exact Or.inl h
          · right
            rcases List.mem_singleton.mp h with rfl
            exact ⟨List.mem_cons_self d l, hds⟩
    · exact Or.inr ⟨List.mem_cons_of_mem d hl, hs⟩

theorem dedup_fold_pairwise (l : List SoapyDict) (acc : List (String × SoapyDict))
    (hacc : List.Pairwise (fun p q => p.1 ≠ q.1) acc) :
    List.Pairwise (fun p q => p.1 ≠ q.1) (l.foldl dedupStep acc) := by
  induction l generalizing acc with
  | nil => exact hacc
  | cons d l ih =>
    rw [List.foldl_cons]
    apply ih
    cases hds : d.serial? with
    | none =>
      rw [dedupStep_no_serial acc d hds]
      exact hacc
    | some s' =>
      cases hany : acc.any (fun q => decide (q.1 = s')) with
      | true =>
        rw [dedupStep_seen acc d s' hds hany]
        exact hacc
      | false =>
        rw [dedupStep_new acc d s' hds hany, List.pairwise_append]
        refine ⟨hacc, List.pairwise_singleton _ _, ?_⟩
        intro p hp q hq
        rcases List.mem_singleton.mp hq with rfl
        intro hps
        rw [List.any_eq_false] at hany
        exact hany p hp (by simp [hps])

/-- C9: descriptors without a serial are discarded; among descriptors sharing
a serial exactly one record survives, namely the first seen across all
enumeration passes; a later descriptor with an already-seen serial never
replaces or modifies the earlier record. -/
theorem C9_enumeration_dedup (passes : List (List SoapyDict)) (s : String) :
    (∀ p ∈ soapyEnumerations passes, p.2.serial? = some p.1 ∧ p.2 ∈ passes.flatten) ∧
    List.Pairwise (fun p q => p.1 ≠ q.1) (soapyEnumerations passes) ∧
    ((soapyEnumerations passes).find? (fun p => decide (p.1 = s))).map (fun p => p.2)
      = passes.flatten.find? (fun d => decide (d.serial? = some s)) := by
  refine ⟨?_, ?_, ?_⟩
  · intro p hp
    rcases dedup_fold_sound _ _ _ hp with h | ⟨hl, hs⟩
    · simp at h
    · exact ⟨hs, hl⟩
  · exact dedup_fold_pairwise _ _ (List.Pairwise.nil)
  · rw [soapyEnumerations, dedup_fold_find]
    simp [oalt, List.find?]

/-- Witness for C9 on two passes where the second pass repeats serial `S`
with a different payload: the first record survives and the duplicate is
dropped. -/
theorem C9_enumeration_dedup_witness :
    ((soapyEnumerations [[⟨some "S", 1⟩, ⟨none, 2⟩], [⟨some "S", 3⟩]]).find?
        (fun p => decide (p.1 = "S"))).map (fun p => p.2) = some ⟨some "S", 1⟩ ∧
    ((⟨"S", ⟨some "S", 1⟩⟩ : String × SoapyDict) ∈
        soapyEnumerations [[⟨some "S", 1⟩, ⟨none, 2⟩], [⟨some "S", 3⟩]] →
      (⟨some "S", 1⟩ : SoapyDict).serial? = some "S" ∧
        (⟨some "S", 1⟩ : SoapyDict) ∈ [[⟨some "S", 1⟩, ⟨none, 2⟩], [⟨some "S", 3⟩]].flatten) := by
  constructor
  · rw [(C9_enumeration_dedup [[⟨some "S", 1⟩, ⟨none, 2⟩], [⟨some "S", 3⟩]] "S").2.2]
    decide
  · exact fun h => (C9_enumeration_dedup [[⟨some "S", 1⟩, ⟨none, 2⟩], [⟨some "S", 3⟩]] "S").1 _ h

/-! ## Basic lemmas about the container helpers -/

theorem ebind_ok {ε α β : Type} (a : α) (f : α → Except ε β) :
    (Except.ok a >>= f) = f a := rfl

theorem ebind_err {ε α β : Type} (e : ε) (f : α → Except ε β) :
    ((Except.error e : Except ε α) >>= f) = Except.error e := rfl

theorem epure {ε α : Type} (a : α) : (pure a : Except ε α) = Except.ok a := rfl

theorem mem_sortedInsert {α : Type} (le : α → α → Bool) (x z : α) (l : List α) :
    z ∈ sortedInsert le x l ↔ z = x ∨ z ∈ l := by
  induction l with
  | nil => simp [sortedInsert]
  | cons y ys ih =>
    rw [sortedInsert]
    by_cases hle : le y x = true
    · rw [if_pos hle]
      simp only [List.mem_cons, ih]
      tauto
    · rw [if_neg hle]
      simp only [List.mem_cons]

theorem mem_stableSort {α : Type} (le : α → α → Bool) (z : α) (l : List α) :
    z ∈ stableSort le l ↔ z ∈ l := by
  have aux : ∀ (l acc : List α), z ∈ l.foldl (fun acc x => sortedInsert le x acc) acc
      ↔ z ∈ acc ∨ z ∈ l := by
    intro l
    induction l with
    | nil => simp
    | cons x xs ih =>
      intro acc
      rw [List.foldl_cons, ih, mem_sortedInsert]
      simp only [List.mem_cons]
      tauto
  rw [stableSort, aux]
  simp

theorem mem_setDedup {α : Type} [DecidableEq α] (z : α) (l : List α) :
    z ∈ setDedup l ↔ z ∈ l := by
  have aux : ∀ (l acc : List α), z ∈ l.foldl (fun acc x => if x ∈ acc then acc else acc ++ [x]) acc
      ↔ z ∈ acc ∨ z ∈ l := by
    intro l
    induction l with
    | nil => simp
    | cons x xs ih =>
      intro acc
      rw [List.foldl_cons]
      by_cases hx : x ∈ acc
      · rw [if_pos hx, ih]
        simp only [List.mem_cons]
        constructor
        · rintro (h | h)
          · exact Or.inl h
          · exact Or.inr (Or.inr h)
        · rintro (h | rfl | h)
          · exact Or.inl h
          · exact Or.inl hx
          · exact Or.inr h
      · rw [if_neg hx, ih]
        simp only [List.mem_append, List.mem_singleton, List.mem_cons]
        tauto
  rw [setDedup, aux]
  simp

theorem mem_dictInsert {α β : Type} [DecidableEq α] (m : List (α × β)) (k : α) (v : β)
    (p : α × β) (hp : p ∈ dictInsert m k v) : p ∈ m ∨ p = (k, v) := by
  induction m with
  | nil =>
    rw [dictInsert] at hp
    exact Or.inr (List.mem_singleton.mp hp)
  | cons q rest ih =>
    rw [show q = (q.1, q.2) from rfl, dictInsert] at hp
    by_cases hk : q.1 = k
    · rw [if_pos hk] at hp
      rcases List.mem_cons.mp hp with rfl | h
      · exact Or.inr (by rw [hk])
      · exact Or.inl (List.mem_cons_of_mem _ h)
    · rw [if_neg hk] at hp
      rcases List.mem_cons.mp hp with rfl | h
      · exact Or.inl (List.mem_cons_self _ _)
      · rcases ih h with h' | h'
        · exact Or.inl (List.mem_cons_of_mem _ h')
        · exact Or.inr h'

theorem dictLookup_mem {α β : Type} [DecidableEq α] (m : List (α × β)) (k : α) (v : β)
    (h : dictLookup m k = some v) : (k, v) ∈ m := by
  induction m with
  | nil => simp [dictLookup] at h
  | cons q rest ih =>
    rw [show q = (q.1, q.2) from rfl, dictLookup] at h
    by_cases hk : q.1 = k
    · rw [if_pos hk] at h
      rcases Option.some.injEq _ _ ▸ h with rfl
      subst hk
      exact List.mem_cons_self _ _
    · rw [if_neg hk] at h
      exact List.mem_cons_of_mem _ (ih h)

theorem mem_installChain (chains : List (Option Int × List ChainGroup)) (key : Option Int)
    (g : ChainGroup) (p : Option Int × List ChainGroup) (hp : p ∈ installChain chains key g)
    (g' : ChainGroup) (hg' : g' ∈ p.2) :
    (∃ gs₀, (p.1, gs₀) ∈ chains ∧ g' ∈ gs₀) ∨ (p.1 = key ∧ g' = g) := by
  unfold installChain at hp
  cases hlk : dictLookup chains key with
  | none =>
    rw [hlk] at hp
    rcases List.mem_append.mp hp with h | h
    · exact Or.inl ⟨p.2, by rwa [Prod.mk.eta], hg'⟩
    · rcases List.mem_singleton.mp h with rfl
      simp only [List.mem_singleton] at hg'
      exact Or.inr ⟨rfl, hg'⟩
  | some gs =>
    rw [hlk] at hp
    rcases mem_dictInsert _ _ _ _ hp with h | h
    · exact Or.inl ⟨p.2, by rwa [Prod.mk.eta], hg'⟩
    · subst h
      rcases List.mem_append.mp hg' with h | h
      · exact Or.inl ⟨gs, dictLookup_mem _ _ _ hlk, h⟩
      · exact Or.inr ⟨rfl, List.mem_singleton.mp h⟩

theorem mem_buildPosMap (nodes : List Iris) (p : Option Int × Iris)
    (hp : p ∈ buildPosMap nodes) : p.2 ∈ nodes := by
  have aux : ∀ (l : List Iris) (acc : List (Option Int × Iris)),
      p ∈ l.foldl (fun m iris => dictInsert m iris.rrh_index iris) acc →
      p ∈ acc ∨ p.2 ∈ l := by
    intro l
    induction l with
    | nil => exact fun acc h => Or.inl h
    | cons x xs ih =>
      intro acc h
      rw [List.foldl_cons] at h
      rcases ih _ h with h' | h'
      · rcases mem_dictInsert _ _ _ _ h' with h'' | h''
        · exact Or.inl h''
        · subst h''
          exact Or.inr (List.mem_cons_self _ _)
      · exact Or.inr (List.mem_cons_of_mem _ h')
  rcases aux nodes [] hp with h | h
  · simp at h
  · exact h

/-! ## The bad-index filter, step by step -/

theorem negIdx_some (x : Iris) (v : Int) (hv : x.rrh_index = some v) :
    negIdx x = decide (v < 0) := by
  simp [negIdx, hv]

theorem splitStep_some (s : String) (x : Iris) (ns nc : List Iris) (err : Bool) (v : Int)
    (hv : x.rrh_index = some v) :
    splitStep s (ns, nc, err) x
      = .ok (if x.serial = s then (ns ++ [x], nc, err || decide (v < 0))
             else (ns, nc ++ [x], err || decide (v < 0))) := by
  unfold splitStep negCheck
  rw [hv]
  by_cases h : x.serial = s <;> simp [h, ebind_ok]

theorem splitStep_none (s : String) (x : Iris) (ns nc : List Iris) (err : Bool)
    (hv : x.rrh_index = none) :
    splitStep s (ns, nc, err) x
      = .error (.typeError "not supported between instances of NoneType and int") := by
  unfold splitStep negCheck
  rw [hv]
  rfl

theorem splitFold (s : String) (tc : List Iris) (ns nc : List Iris) (err : Bool)
    (hall : ∀ x ∈ tc, x.rrh_index.isSome = true) :
    tc.foldlM (splitStep s) (ns, nc, err)
      = .ok (ns ++ tc.filter (fun x => decide (x.serial = s)),
             nc ++ tc.filter (fun x => !decide (x.serial = s)),
             err || tc.any negIdx) := by
  induction tc generalizing ns nc err with
  | nil => simp [List.foldlM_nil, epure]
  | cons x xs ih =>
    obtain ⟨v, hv⟩ := Option.isSome_iff_exists.mp (hall x (List.mem_cons_self x xs))
    have hxs : ∀ y ∈ xs, y.rrh_index.isSome = true :=
      fun y hy => hall y (List.mem_cons_of_mem x hy)
    rw [List.foldlM_cons, splitStep_some s x ns nc err v hv]
    by_cases h : x.serial = s
    · rw [if_pos h, ebind_ok, ih _ _ _ hxs]
      simp [List.filter_cons, h, negIdx_some x v hv, Bool.or_assoc, List.any_cons]
    · rw [if_neg h, ebind_ok, ih _ _ _ hxs]
      simp [List.filter_cons, h, negIdx_some x v hv, Bool.or_assoc, List.any_cons]

theorem splitFold_inv (s : String) (tc : List Iris) (ns nc : List Iris) (err : Bool)
    (ns' nc' : List Iris) (err' : Bool)
    (h : tc.foldlM (splitStep s) (ns, nc, err) = .ok (ns', nc', err')) :
    (∀ x ∈ ns', x ∈ ns ∨ x ∈ tc) ∧ (∀ x ∈ nc', x ∈ nc ∨ x ∈ tc) := by
  induction tc generalizing ns nc err with
  | nil =>
    rw [List.foldlM_nil, epure] at h
    simp only [Except.ok.injEq, Prod.mk.injEq] at h
    obtain ⟨rfl, rfl, rfl⟩ := h
    exact ⟨fun x hx => Or.inl hx, fun x hx => Or.inl hx⟩
  | cons x xs ih =>
    rw [List.foldlM_cons] at h
    cases hv : x.rrh_index with
    | none =>
      rw [splitStep_none s x ns nc err hv, ebind_err] at h
      cases h
    | some v =>
      rw [splitStep_some s x ns nc err v hv] at h
      by_cases hs : x.serial = s
      · rw [if_pos hs, ebind_ok] at h
        obtain ⟨h1, h2⟩ := ih _ _ _ h
        constructor
        · intro y hy
          rcases h1 y hy with hmem | hmem
          · rcases List.mem_append.mp hmem with hmem' | hmem'
            · exact Or.inl hmem'
            · exact Or.inr (List.mem_cons.mpr (Or.inl (List.mem_singleton.mp hmem')))
          · exact Or.inr (List.mem_cons_of_mem x hmem)
        · intro y hy
          rcases h2 y hy with hmem | hmem
          · exact Or.inl hmem
          · exact Or.inr (List.mem_cons_of_mem x hmem)
      · rw [if_neg hs, ebind_ok] at h
        obtain ⟨h1, h2⟩ := ih _ _ _ h
        constructor
        · intro y hy
          rcases h1 y hy with hmem | hmem
          · exact Or.inl hmem
          · exact Or.inr (List.mem_cons_of_mem x hmem)
        · intro y hy
          rcases h2 y hy with hmem | hmem
          · rcases List.mem_append.mp hmem with hmem' | hmem'
            · exact Or.inl hmem'
            · exact Or.inr (List.mem_cons.mpr (Or.inl (List.mem_singleton.mp hmem')))
          · exact Or.inr (List.mem_cons_of_mem x hmem)

theorem scanSerial_eq (s : String) (ns tc : List Iris) (err : Bool)
    (hall : ∀ x ∈ tc, x.rrh_index.isSome = true) :
    scanSerial (ns, tc, err) s
      = .ok (ns ++ tc.filter (fun x => decide (x.serial = s)),
             tc.filter (fun x => !decide (x.serial = s)),
             err || tc.any negIdx) := by
  unfold scanSerial
  exact splitFold s tc ns [] err hall

theorem scanSerial_inv (s : String) (ns tc : List Iris) (err : Bool)
    (ns' tc' : List Iris) (err' : Bool)
    (h : scanSerial (ns, tc, err) s = .ok (ns', tc', err')) :
    (∀ x ∈ ns', x ∈ ns ∨ x ∈ tc) ∧ (∀ x ∈ tc', x ∈ tc) := by
  unfold scanSerial at h
  obtain ⟨h1, h2⟩ := splitFold_inv s tc ns [] err ns' tc' err' h
  refine ⟨h1, fun x hx => ?_⟩
  rcases h2 x hx with hmem | hmem
  · simp at hmem
  · exact hmem

theorem cfgFold (cfg : List String) (ns tc : List Iris) (err : Bool)
    (hall : ∀ x ∈ tc, x.rrh_index.isSome = true) :
    ∃ ns' tc', cfg.foldlM scanSerial (ns, tc, err)
        = .ok (ns', tc', err || (!cfg.isEmpty && tc.any negIdx)) ∧
      (∀ x ∈ tc', x ∈ tc) ∧ (∀ x ∈ ns', x ∈ ns ∨ x ∈ tc) ∧
      (cfg = [] → ns' = ns ∧ tc' = tc) := by
  induction cfg generalizing ns tc err with
  | nil =>
    refine ⟨ns, tc, ?_, fun x hx => hx, fun x hx => Or.inl hx, fun _ => ⟨rfl, rfl⟩⟩
    simp [List.foldlM_nil, epure]
  | cons s rest ih =>
    rw [List.foldlM_cons, scanSerial_eq s ns tc err hall, ebind_ok]
    have hall1 : ∀ x ∈ tc.filter (fun x => !decide (x.serial = s)), x.rrh_index.isSome = true :=
      fun x hx => hall x (List.mem_of_mem_filter hx)
    obtain ⟨ns', tc', hfold, htc', hns', _⟩ :=
      ih (ns ++ tc.filter (fun x => decide (x.serial = s)))
        (tc.filter (fun x => !decide (x.serial = s))) (err || tc.any negIdx) hall1
    have habs : (tc.filter (fun x => !decide (x.serial = s))).any negIdx = true →
        tc.any negIdx = true := by
      intro h
      rcases List.any_eq_true.mp h with ⟨x, hx, hneg⟩
      exact List.any_eq_true.mpr ⟨x, List.mem_of_mem_filter hx, hneg⟩
    refine ⟨ns', tc', ?_, fun x hx => List.mem_of_mem_filter (htc' x hx), ?_, by simp⟩
    · rw [hfold]
      have herr : ((err || tc.any negIdx)
            || (!rest.isEmpty && (tc.filter (fun x => !decide (x.serial = s))).any negIdx))
          = (err || (!(s :: rest).isEmpty && tc.any negIdx)) := by
        cases h1 : (tc.filter (fun x => !decide (x.serial = s))).any negIdx with
        | true => simp [habs h1]
        | false => cases h2 : tc.any negIdx <;> simp
      rw [herr]
    · intro x hx
      rcases hns' x hx with hmem | hmem
      · rcases List.mem_append.mp hmem with hmem' | hmem'
        · exact Or.inl hmem'
        · exact Or.inr (List.mem_of_mem_filter hmem')
      · exact Or.inr (List.mem_of_mem_filter hmem)

theorem cfgFold_inv (cfg : List String) (ns tc : List Iris) (err : Bool)
    (ns' tc' : List Iris) (err' : Bool)
    (h : cfg.foldlM scanSerial (ns, tc, err) = .ok (ns', tc', err')) :
    (∀ x ∈ ns', x ∈ ns ∨ x ∈ tc) ∧ (∀ x ∈ tc', x ∈ tc) := by
  induction cfg generalizing ns tc err with
  | nil =>
    rw [List.foldlM_nil, epure] at h
    simp only [Except.ok.injEq, Prod.mk.injEq] at h
    obtain ⟨rfl, rfl, rfl⟩ := h
    exact ⟨fun x hx => Or.inl hx, fun x hx => hx⟩
  | cons s rest ih =>
    rw [List.foldlM_cons] at h
    cases hs : scanSerial (ns, tc, err) s with
    | error e =>
      rw [hs, ebind_err] at h
      cases h
    | ok st =>
      obtain ⟨a, b, c⟩ := st
      rw [hs, ebind_ok] at h
      obtain ⟨hsa, hsb⟩ := scanSerial_inv s ns tc err a b c hs
      obtain ⟨h1, h2⟩ := ih a b c h
      constructor
      · intro x hx
        rcases h1 x hx with hmem | hmem
        · rcases hsa x hmem with hmem' | hmem'
          · exact Or.inl hmem'
          · exact Or.inr hmem'
        · exact Or.inr (hsb x hmem)
      · exact fun x hx => hsb x (h2 x hx)

theorem scanHead_eq (tc : List Iris) (rrhs : List (List Iris)) (err : Bool) (head : Iris)
    (cfgv : SfpRRH) (hcfg : head.rrh_config = some cfgv)
    (hall : ∀ x ∈ tc, x.rrh_index.isSome = true) :
    ∃ nodes tc', scanHead (tc, rrhs, err) head
        = .ok (tc', rrhs ++ [nodes], err || (cfgNonempty head && tc.any negIdx)) ∧
      (∀ x ∈ tc', x ∈ tc) ∧ (∀ x ∈ nodes, x ∈ tc) ∧
      (cfgNonempty head = false → tc' = tc) := by
  have hhc : headChainList head = .ok (cfgv.chain?.getD []) := by
    unfold headChainList
    rw [hcfg]
  have hcn : cfgNonempty head = !(cfgv.chain?.getD []).isEmpty := by
    unfold cfgNonempty
    rw [hcfg]
  obtain ⟨ns', tc', hfold, htc', hns', hnil⟩ :=
    cfgFold (cfgv.chain?.getD []) [] tc err hall
  refine ⟨ns', tc', ?_, htc', ?_, ?_⟩
  · unfold scanHead
    rw [hhc, ebind_ok, hfold, ebind_ok, epure, hcn]
  · intro x hx
    rcases hns' x hx with hmem | hmem
    · simp at hmem
    · exact hmem
  · intro hfalse
    rw [hcn] at hfalse
    have : (cfgv.chain?.getD []) = [] := by
      cases hl : cfgv.chain?.getD [] with
      | nil => rfl
      | cons a l => rw [hl] at hfalse; simp at hfalse
    exact (hnil this).2

theorem scanHead_inv (tc : List Iris) (rrhs : List (List Iris)) (err : Bool) (head : Iris)
    (tc' : List Iris) (rrhs' : List (List Iris)) (err' : Bool)
    (h : scanHead (tc, rrhs, err) head = .ok (tc', rrhs', err')) :
    (∀ x ∈ tc', x ∈ tc) ∧ (∀ g ∈ rrhs', g ∈ rrhs ∨ ∀ x ∈ g, x ∈ tc) := by
  unfold scanHead at h
  cases hhc : headChainList head with
  | error e =>
    rw [hhc, ebind_err] at h
    cases h
  | ok cfg =>
    rw [hhc, ebind_ok] at h
    cases hf : cfg.foldlM scanSerial (([] : List Iris), tc, err) with
    | error e =>
      rw [hf, ebind_err] at h
      cases h
    | ok st =>
      obtain ⟨a, b, c⟩ := st
      rw [hf, ebind_ok, epure] at h
      simp only [Except.ok.injEq, Prod.mk.injEq] at h
      obtain ⟨rfl, rfl, rfl⟩ := h
      obtain ⟨ha, hb⟩ := cfgFold_inv cfg [] tc err a b c hf
      refine ⟨hb, fun g hg => ?_⟩
      rcases List.mem_append.mp hg with hmem | hmem
      · exact Or.inl hmem
      · rcases List.mem_singleton.mp hmem with rfl
        right
        intro x hx
        rcases ha x hx with hmem' | hmem'
        · simp at hmem'
        · exact hmem'

theorem headsFold_eq (heads : List Iris) (tc : List Iris) (rrhs : List (List Iris)) (err : Bool)
    (hcfgs : ∀ h ∈ heads, h.rrh_config.isSome = true)
    (hall : ∀ x ∈ tc, x.rrh_index.isSome = true) :
    ∃ tc' rrhs', heads.foldlM scanHead (tc, rrhs, err)
        = .ok (tc', rrhs', err || (heads.any cfgNonempty && tc.any negIdx)) ∧
      (∀ x ∈ tc', x ∈ tc) ∧ (∀ g ∈ rrhs', g ∈ rrhs ∨ ∀ x ∈ g, x ∈ tc) := by
  induction heads generalizing tc rrhs err with
  | nil =>
    refine ⟨tc, rrhs, ?_, fun x hx => hx, fun g hg => Or.inl hg⟩
    simp [List.foldlM_nil, epure]
  | cons hd rest ih =>
    obtain ⟨cfgv, hcfgv⟩ :=
      Option.isSome_iff_exists.mp (hcfgs hd (List.mem_cons_self hd rest))
    have hrest : ∀ h ∈ rest, h.rrh_config.isSome = true :=
      fun h hh => hcfgs h (List.mem_cons_of_mem hd hh)
    obtain ⟨nodes, tc1, hstep, htc1, hnodes, hsame⟩ := scanHead_eq tc rrhs err hd cfgv hcfgv hall
    have hall1 : ∀ x ∈ tc1, x.rrh_index.isSome = true := fun x hx => hall x (htc1 x hx)
    obtain ⟨tc', rrhs', hfold, htc', hrrhs'⟩ :=
      ih tc1 (rrhs ++ [nodes]) (err || (cfgNonempty hd && tc.any negIdx)) hrest hall1
    have habs : tc1.any negIdx = true → tc.any negIdx = true := by
      intro h
      rcases List.any_eq_true.mp h with ⟨x, hx, hneg⟩
      exact List.any_eq_true.mpr ⟨x, htc1 x hx, hneg⟩
    refine ⟨tc', rrhs', ?_, fun x hx => htc1 x (htc' x hx), ?_⟩
    · rw [List.foldlM_cons, hstep, ebind_ok, hfold]
      have herr : ((err || (cfgNonempty hd && tc.any negIdx)) || (rest.any cfgNonempty && tc1.any negIdx))
          = (err || ((hd :: rest).any cfgNonempty && tc.any negIdx)) := by
        rw [List.any_cons]
        cases hA : cfgNonempty hd with
        | true =>
          cases hT1 : tc1.any negIdx with
          | true => simp [habs hT1]
          | false => cases hT : tc.any negIdx <;> simp
        | false =>
          rw [hsame hA]
          simp
      rw [herr]
    · intro g hg
      rcases hrrhs' g hg with hmem | hmem
      · rcases List.mem_append.mp hmem with hmem' | hmem'
        · exact Or.inl hmem'
        · rcases List.mem_singleton.mp hmem' with rfl
          exact Or.inr hnodes
      · exact Or.inr (fun x hx => htc1 x (hmem x hx))

theorem headsFold_inv (heads : List Iris) (tc : List Iris) (rrhs : List (List Iris)) (err : Bool)
    (tc' : List Iris) (rrhs' : List (List Iris)) (err' : Bool)
    (h : heads.foldlM scanHead (tc, rrhs, err) = .ok (tc', rrhs', err')) :
    (∀ x ∈ tc', x ∈ tc) ∧ (∀ g ∈ rrhs', g ∈ rrhs ∨ ∀ x ∈ g, x ∈ tc) := by
  induction heads generalizing tc rrhs err with
  | nil =>
    rw [List.foldlM_nil, epure] at h
    simp only [Except.ok.injEq, Prod.mk.injEq] at h
    obtain ⟨rfl, rfl, rfl⟩ := h
    exact ⟨fun x hx => hx, fun g hg => Or.inl hg⟩
  | cons hd rest ih =>
    rw [List.foldlM_cons] at h
    cases hs : scanHead (tc, rrhs, err) hd with
    | error e =>
      rw [hs, ebind_err] at h
      cases h
    | ok st =>
      obtain ⟨a, b, c⟩ := st
      rw [hs, ebind_ok] at h
      obtain ⟨ha, hb⟩ := scanHead_inv tc rrhs err hd a b c hs
      obtain ⟨h1, h2⟩ := ih a b c h
      refine ⟨fun x hx => ha x (h1 x hx), fun g hg => ?_⟩
      rcases h2 g hg with hmem | hmem
      · rcases hb g hmem with hmem' | hmem'
        · exact Or.inl hmem'
        · exact Or.inr hmem'
      · exact Or.inr (fun x hx => ha x (hmem x hx))

theorem filter_chain_eq (ci : Option Int) (tc : List Iris)
    (href : isReference ci = false)
    (hcfgs : ∀ h ∈ RRH.get_heads tc, h.rrh_config.isSome = true)
    (hall : ∀ x ∈ tc, x.rrh_index.isSome = true) :
    ∃ rrhs, filter_chain_for_bad_indexes ci tc
        = .ok (rrhs, (RRH.get_heads tc).any cfgNonempty && tc.any negIdx) ∧
      ∀ g ∈ rrhs, ∀ x ∈ g, x ∈ tc := by
  obtain ⟨tc', rrhs', hfold, htc', hrrhs'⟩ :=
    headsFold_eq (RRH.get_heads tc) tc [] false hcfgs hall
  rw [Bool.false_or] at hfold
  refine ⟨if tc'.isEmpty then rrhs' else rrhs' ++ [tc'], ?_, ?_⟩
  · unfold filter_chain_for_bad_indexes
    rw [href]
    simp only [Bool.false_eq_true, if_false]
    rw [hfold, ebind_ok, epure]
  · intro g hg
    by_cases hemp : tc'.isEmpty
    · rw [if_pos hemp] at hg
      rcases hrrhs' g hg with hmem | hmem
      · simp at hmem
      · exact hmem
    · rw [if_neg hemp] at hg
      rcases List.mem_append.mp hg with hmem | hmem
      · rcases hrrhs' g hmem with hmem' | hmem'
        · simp at hmem'
        · exact hmem'
      · rcases List.mem_singleton.mp hmem with rfl
        exact htc'

theorem filter_chain_inv (ci : Option Int) (tc : List Iris)
    (rrhs : List (List Iris)) (err : Bool)
    (h : filter_chain_for_bad_indexes ci tc = .ok (rrhs, err)) :
    ∀ g ∈ rrhs, ∀ x ∈ g, x ∈ tc := by
  unfold filter_chain_for_bad_indexes at h
  cases href : isReference ci with
  | true =>
    rw [href] at h
    simp only [if_true] at h
    simp only [Except.ok.injEq, Prod.mk.injEq] at h
    obtain ⟨rfl, rfl⟩ := h
    intro g hg
    rcases List.mem_singleton.mp hg with rfl
    exact fun x hx => hx
  | false =>
    rw [href] at h
    simp only [Bool.false_eq_true, if_false] at h
    cases hf : (RRH.get_heads tc).foldlM scanHead (tc, ([] : List (List Iris)), false) with
    | error e =>
      rw [hf, ebind_err] at h
      cases h
    | ok st =>
      obtain ⟨a, b, c⟩ := st
      rw [hf, ebind_ok, epure] at h
      simp only [Except.ok.injEq, Prod.mk.injEq] at h
      obtain ⟨rfl, rfl⟩ := h
      obtain ⟨ha, hb⟩ := headsFold_inv (RRH.get_heads tc) tc [] false a b c hf
      intro g hg
      by_cases hemp : a.isEmpty
      · rw [if_pos hemp] at hg
        rcases hb g hg with hmem | hmem
        · simp at hmem
        · exact hmem
      · rw [if_neg hemp] at hg
        rcases List.mem_append.mp hg with hmem | hmem
        · rcases hb g hmem with hmem' | hmem'
          · simp at hmem'
          · exact hmem'
        · rcases List.mem_singleton.mp hmem with rfl
          exact ha

/-! ## `RRH.__init__` -/

theorem sortByRRHIndexE_ok (l : List Iris) (hall : ∀ x ∈ l, x.rrh_index.isSome = true) :
    sortByRRHIndexE l = .ok (stableSort (fun a b => optIntLe a.rrh_index b.rrh_index) l) := by
  unfold sortByRRHIndexE
  have hnone : (l.any fun x => x.rrh_index.isNone) = false := by
    rw [List.any_eq_false]
    intro x hx
    rw [Option.isNone_iff_eq_none]
    intro hn
    have := hall x hx
    rw [hn] at this
    simp at this
  rw [hnone]
  simp

theorem sortByRRHIndexE_inv (l nodes : List Iris) (h : sortByRRHIndexE l = .ok nodes) :
    ∀ z, z ∈ nodes ↔ z ∈ l := by
  unfold sortByRRHIndexE at h
  by_cases hg : (decide (2 ≤ l.length) && (l.any fun x => x.rrh_index.isNone)) = true
  · rw [if_pos hg] at h
    by_cases hs : (l.any fun x => x.rrh_index.isSome) = true
    · rw [if_pos hs] at h
      cases h
    · rw [if_neg hs] at h
      cases h
  · rw [if_neg hg] at h
    simp only [Except.ok.injEq] at h
    subst h
    exact fun z => mem_stableSort _ z l

theorem chainAgreement_const (l : List Iris) (c : Int) (hne : l ≠ [])
    (hc : ∀ x ∈ l, x.chain_index = some c) : chainAgreement l = some c := by
  cases l with
  | nil => exact absurd rfl hne
  | cons n rest =>
    have aux : ∀ (rest : List Iris) (a : Iris), a.chain_index = some c →
        (∀ x ∈ rest, x.chain_index = some c) →
        ∃ b, rest.foldl (fun acc y =>
            match acc with
            | none => none
            | some a => if a.chain_index = y.chain_index then some y else none) (some a) = some b
          ∧ b.chain_index = some c := by
      intro rest
      induction rest with
      | nil => exact fun a ha _ => ⟨a, rfl, ha⟩
      | cons y ys ih =>
        intro a ha hall
        rw [List.foldl_cons]
        have hy : y.chain_index = some c := hall y (List.mem_cons_self y ys)
        have heq : a.chain_index = y.chain_index := by rw [ha, hy]
        simp only [heq, if_pos]
        exact ih y hy (fun x hx => hall x (List.mem_cons_of_mem y hx))
    obtain ⟨b, hfold, hb⟩ := aux rest n (hc n (List.mem_cons_self n rest))
      (fun x hx => hc x (List.mem_cons_of_mem n hx))
    simp only [chainAgreement]
    rw [hfold]
    simpa using hb

theorem RRH_init_ok_inv (members : List Iris) (r : RRHData)
    (h : RRH_init members = .ok r) :
    r.nodes = stableSort (fun a b => optIntLe a.rrh_index b.rrh_index) members ∧
    r.config_correct
      = ((r.nodes.map fun x => x.serial).zip r.config_chain).all (fun p => decide (p.1 = p.2)) ∧
    r.head ∈ members ∧ r.head.rrh_head = true ∧
    (∃ cfgv, r.head.rrh_config = some cfgv ∧ cfgv.serial? = some r.serial ∧
      cfgv.chain? = some r.config_chain) := by
  simp only [RRH_init] at h
  cases hhead : (if (RRH.get_heads members).length = 1
      then (RRH.get_heads members).head? else none) with
  | none =>
    rw [hhead] at h
    cases h
  | some head =>
    rw [hhead] at h
    simp only [] at h
    cases hcfg : head.rrh_config with
    | none =>
      rw [hcfg] at h
      cases h
    | some config =>
      rw [hcfg] at h
      simp only [] at h
      by_cases hnn : (config.serial?.isNone && config.chain?.isNone) = true
      · rw [if_pos hnn] at h
        cases h
      · rw [if_neg hnn] at h
        cases hsort : sortByRRHIndexE members with
        | error e =>
          rw [hsort, ebind_err] at h
          cases h
        | ok nodes =>
          rw [hsort, ebind_ok] at h
          cases hser : config.serial? with
          | none =>
            rw [hser] at h
            cases h
          | some serial =>
            rw [hser] at h
            simp only [] at h
            cases hagree : chainAgreement nodes with
            | none =>
              rw [hagree] at h
              cases h
            | some chain =>
              rw [hagree] at h
              simp only [] at h
              cases hch : config.chain? with
              | none =>
                rw [hch] at h
                cases h
              | some config_chain =>
                rw [hch] at h
                simp only [Except.ok.injEq] at h
                subst h
                have hmem : head ∈ members ∧ head.rrh_head = true := by
                  have hsome : (RRH.get_heads members).head? = some head := by
                    by_cases hlen : (RRH.get_heads members).length = 1
                    · rwa [if_pos hlen] at hhead
                    · rw [if_neg hlen] at hhead
                      cases hhead
                  have hin : head ∈ RRH.get_heads members := by
                    cases hgh : RRH.get_heads members with
                    | nil => rw [hgh] at hsome; cases hsome
                    | cons a l =>
                      rw [hgh] at hsome
                      simp only [List.head?_cons, Option.some.injEq] at hsome
                      subst hsome
                      exact List.mem_cons_self _ _
                  unfold RRH.get_heads at hin
                  exact ⟨List.mem_of_mem_filter hin, by
                    have := List.of_mem_filter hin
                    simpa using this⟩
                have hnodes : nodes
                    = stableSort (fun a b => optIntLe a.rrh_index b.rrh_index) members := by
                  unfold sortByRRHIndexE at hsort
                  by_cases hg : (decide (2 ≤ members.length)
                      && (members.any fun x => x.rrh_index.isNone)) = true
                  · rw [if_pos hg] at hsort
                    by_cases hs : (members.any fun x => x.rrh_index.isSome) = true
                    · rw [if_pos hs] at hsort
                      cases hsort
                    · rw [if_neg hs] at hsort
                      cases hsort
                  · rw [if_neg hg] at hsort
                    simp only [Except.ok.injEq] at hsort
                    exact hsort.symm
                exact ⟨hnodes, rfl, hmem.1, hmem.2, ⟨config, hcfg, hser, hch⟩⟩

theorem RRH_init_total (members : List Iris) (c : Int) (hne : members ≠ [])
    (hall : ∀ x ∈ members, x.rrh_index.isSome = true)
    (hhom : ∀ x ∈ members, x.chain_index = some c)
    (hcfg : ∀ x ∈ members, x.rrh_head = true →
      ∃ cf, x.rrh_config = some cf ∧ cf.serial?.isSome = true ∧ cf.chain?.isSome = true) :
    (∃ r, RRH_init members = .ok r) ∨ RRH_init members = .error .notAnRRH := by
  simp only [RRH_init]
  by_cases hlen : (RRH.get_heads members).length = 1
  · rw [if_pos hlen]
    obtain ⟨hd, hhd⟩ := List.length_eq_one.mp hlen
    rw [hhd]
    simp only [List.head?_cons]
    have hdin : hd ∈ RRH.get_heads members := by
      rw [hhd]
      exact List.mem_cons_self _ _
    have hdmem : hd ∈ members := List.mem_of_mem_filter hdin
    have hdhead : hd.rrh_head = true := by
      have := List.of_mem_filter hdin
      simpa using this
    obtain ⟨cf, hcf, hserial, hchain⟩ := hcfg hd hdmem hdhead
    rw [hcf]
    simp only []
    obtain ⟨sv, hsv⟩ := Option.isSome_iff_exists.mp hserial
    obtain ⟨cv, hcv⟩ := Option.isSome_iff_exists.mp hchain
    have hnn : (cf.serial?.isNone && cf.chain?.isNone) = false := by
      rw [hsv]
      simp
    rw [hnn]
    simp only [Bool.false_eq_true, if_false]
    rw [sortByRRHIndexE_ok members hall, ebind_ok, hsv]
    have hsne : stableSort (fun a b => optIntLe a.rrh_index b.rrh_index) members ≠ [] := by
      intro hempty
      cases members with
      | nil => exact hne rfl
      | cons m ms =>
        have : m ∈ stableSort (fun a b => optIntLe a.rrh_index b.rrh_index) (m :: ms) :=
          (mem_stableSort _ m (m :: ms)).mpr (List.mem_cons_self m ms)
        rw [hempty] at this
        cases this
    have hshom : ∀ x ∈ stableSort (fun a b => optIntLe a.rrh_index b.rrh_index) members,
        x.chain_index = some c :=
      fun x hx => hhom x ((mem_stableSort _ x members).mp hx)
    rw [chainAgreement_const _ c hsne hshom, hcv]
    exact Or.inl ⟨_, rfl⟩
  · rw [if_neg hlen]
    exact Or.inr rfl

/-! ## `create_chain` -/

theorem chainAttempt_reference (ci : Option Int) (nodes : List Iris) (err : Bool)
    (href : isReference ci = true) : chainAttempt ci nodes err = .ok (none, err) := by
  unfold chainAttempt
  rw [href]
  rw [if_neg (by simp)]

theorem create_chain_empty (hub : HubState) (ci : Option Int) (err : Bool) :
    create_chain hub ci [] err = .ok hub := by
  unfold create_chain
  rfl

theorem create_chain_of_attempt (hub : HubState) (ci : Option Int) (nodes : List Iris)
    (err : Bool) (y : Option ChainGroup × Bool) (hca : chainAttempt ci nodes err = .ok y)
    (hne : nodes ≠ []) :
    create_chain hub ci nodes err
      = .ok { hub with
          chains := installChain hub.chains ci
            (match y.1 with
             | some g => g
             | none => ChainGroup.chain (buildPosMap nodes) y.2),
          error := hub.error || groupError
            (match y.1 with
             | some g => g
             | none => ChainGroup.chain (buildPosMap nodes) y.2) } := by
  unfold create_chain
  rw [if_neg (by simp [List.isEmpty_iff, hne]), hca, ebind_ok]

theorem create_chain_reference (hub : HubState) (ci : Option Int) (nodes : List Iris)
    (err : Bool) (href : isReference ci = true) (hne : nodes ≠ []) :
    create_chain hub ci nodes err
      = .ok { hub with chains := installChain hub.chains ci (.chain (buildPosMap nodes) err),
                       error := hub.error || err } := by
  rw [create_chain_of_attempt hub ci nodes err (none, err)
    (chainAttempt_reference ci nodes err href) hne]
  rfl

/-- What `chainAttempt` can return, case by case. -/
theorem chainAttempt_inv (ci : Option Int) (nodes : List Iris) (err : Bool)
    (y1 : Option ChainGroup) (y2 : Bool) (hca : chainAttempt ci nodes err = .ok (y1, y2)) :
    (y1 = none ∧ (y2 = err ∨ y2 = true)) ∨
    (∃ r, RRH_init nodes = .ok r ∧ y1 = some (ChainGroup.rrh { r with error := err })
      ∧ y2 = err ∧ isReference ci = false) := by
  unfold chainAttempt at hca
  by_cases href : isReference ci = true
  · rw [href] at hca
    rw [if_neg (by simp)] at hca
    simp only [Except.ok.injEq, Prod.mk.injEq] at hca
    exact Or.inl ⟨hca.1.symm, Or.inl hca.2.symm⟩
  · rw [if_pos (by simpa using href)] at hca
    cases hri : RRH_init nodes with
    | ok r =>
      rw [hri] at hca
      simp only [Except.ok.injEq, Prod.mk.injEq] at hca
      exact Or.inr ⟨r, rfl, hca.1.symm, hca.2.symm, by simpa using href⟩
    | error e =>
      cases e with
      | notAnRRH =>
        rw [hri] at hca
        simp only [Except.ok.injEq, Prod.mk.injEq] at hca
        exact Or.inl ⟨hca.1.symm, Or.inr hca.2.symm⟩
      | assertionError m => rw [hri] at hca; cases hca
      | keyError k => rw [hri] at hca; cases hca
      | attributeError m => rw [hri] at hca; cases hca
      | typeError m => rw [hri] at hca; cases hca

theorem create_chain_inv (hub : HubState) (ci : Option Int) (nodes : List Iris) (err : Bool)
    (res : HubState) (h : create_chain hub ci nodes err = .ok res) :
    res.serial = hub.serial ∧ res.macmatches = hub.macmatches ∧ res.unpaired = hub.unpaired ∧
    res.irises = hub.irises ∧ res.irises_by_serial = hub.irises_by_serial ∧
    (hub.error = true → res.error = true) ∧
    (err = true → nodes ≠ [] → res.error = true) ∧
    (∀ p ∈ res.chains, ∀ g ∈ p.2, (∃ gs₀, (p.1, gs₀) ∈ hub.chains ∧ g ∈ gs₀) ∨
      (p.1 = ci ∧ (∀ x ∈ groupMembers g, x ∈ nodes) ∧
        (isReference ci = true → g.isRRH = false))) := by
  by_cases hemp : nodes.isEmpty = true
  · have hnil : nodes = [] := List.isEmpty_iff.mp hemp
    subst hnil
    rw [create_chain_empty hub ci err] at h
    simp only [Except.ok.injEq] at h
    subst h
    refine ⟨rfl, rfl, rfl, rfl, rfl, fun he => he, fun _ hne => absurd rfl hne, ?_⟩
    intro p hp g hg
    exact Or.inl ⟨p.2, by rwa [Prod.mk.eta], hg⟩
  · have hne : nodes ≠ [] := fun hn => hemp (by simp [hn])
    cases hca : chainAttempt ci nodes err with
    | error e =>
      unfold create_chain at h
      rw [if_neg hemp, hca, ebind_err] at h
      cases h
    | ok y =>
      obtain ⟨y1, y2⟩ := y
      rw [create_chain_of_attempt hub ci nodes err (y1, y2) hca hne] at h
      simp only [Except.ok.injEq] at h
      subst h
      set group := (match (y1, y2).1 with
        | some g => g
        | none => ChainGroup.chain (buildPosMap nodes) (y1, y2).2) with hgroup_def
      have hgmem : ∀ x ∈ groupMembers group, x ∈ nodes := by
        rcases chainAttempt_inv ci nodes err y1 y2 hca with ⟨rfl, _⟩ | ⟨r, hri, rfl, _, _⟩
        · simp only [hgroup_def, groupMembers]
          intro x hx
          rcases List.mem_map.mp hx with ⟨p, hp, rfl⟩
          exact mem_buildPosMap nodes p hp
        · simp only [hgroup_def, groupMembers]
          obtain ⟨hnodes_eq, _⟩ := RRH_init_ok_inv nodes r hri
          intro x hx
          have : x ∈ stableSort (fun a b => optIntLe a.rrh_index b.rrh_index) nodes := by
            rw [← hnodes_eq]
            exact hx
          exact (mem_stableSort _ x nodes).mp this
      have hrefRRH : isReference ci = true → group.isRRH = false := by
        intro href
        rcases chainAttempt_inv ci nodes err y1 y2 hca with ⟨rfl, _⟩ | ⟨r, _, _, _, hfalse⟩
        · rfl
        · rw [href] at hfalse
          cases hfalse
      have herr2 : err = true → groupError group = true := by
        intro herr
        rcases chainAttempt_inv ci nodes err y1 y2 hca with ⟨hy1, hy2⟩ | ⟨r, hri, hy1, hy2, _⟩
        · subst hy1
          rcases hy2 with hy2 | hy2 <;> (subst hy2; simp [hgroup_def, groupError, herr])
        · subst hy1
          subst hy2
          simp [hgroup_def, groupError, herr]
      refine ⟨rfl, rfl, rfl, rfl, rfl, fun he => by simp [he], fun he _ => by simp [herr2 he], ?_⟩
      intro p hp g hg
      rcases mem_installChain hub.chains ci group p hp g hg with hold | ⟨hkey, rfl⟩
      · exact Or.inl hold
      · exact Or.inr ⟨hkey, hgmem, hrefRRH⟩

theorem create_chain_total (hub : HubState) (ci : Option Int) (nodes : List Iris) (err : Bool)
    (hcond : nodes ≠ [] → isReference ci = true ∨
      ((∀ x ∈ nodes, x.rrh_index.isSome = true) ∧
       (∃ c, ∀ x ∈ nodes, x.chain_index = some c) ∧
       (∀ x ∈ nodes, x.rrh_head = true →
         ∃ cf, x.rrh_config = some cf ∧ cf.serial?.isSome = true ∧ cf.chain?.isSome = true))) :
    ∃ res, create_chain hub ci nodes err = .ok res := by
  by_cases hemp : nodes.isEmpty = true
  · refine ⟨hub, ?_⟩
    rw [List.isEmpty_iff.mp hemp]
    exact create_chain_empty hub ci err
  · have hne : nodes ≠ [] := fun hn => hemp (by simp [hn])
    rcases hcond hne with href | ⟨hall, ⟨c, hhom⟩, hcfg⟩
    · exact ⟨_, create_chain_reference hub ci nodes err href hne⟩
    · by_cases href : isReference ci = true
      · exact ⟨_, create_chain_reference hub ci nodes err href hne⟩
      · have hattempt : ∃ y, chainAttempt ci nodes err = .ok y := by
          unfold chainAttempt
          rw [if_pos (by simpa using href)]
          rcases RRH_init_total nodes c hne hall hhom hcfg with ⟨r, hr⟩ | hr
          · rw [hr]
            exact ⟨_, rfl⟩
          · rw [hr]
            exact ⟨_, rfl⟩
        obtain ⟨y, hy⟩ := hattempt
        exact ⟨_, create_chain_of_attempt hub ci nodes err y hy hne⟩

/-! ## The per-chain reconciliation loop -/

theorem sortChainIds_mem (ids cids : List (Option Int)) (h : sortChainIds ids = .ok cids) :
    ∀ z ∈ cids, z ∈ ids := by
  unfold sortChainIds at h
  by_cases hg : ((setDedup ids).any (fun c => c.isNone)
      && (setDedup ids).any (fun c => c.isSome)) = true
  · rw [if_pos hg] at h
    cases h
  · rw [if_neg hg] at h
    by_cases hnone : ((setDedup ids).all fun c => c.isNone) = true
    · rw [if_pos hnone] at h
      simp only [Except.ok.injEq] at h
      subst h
      exact fun z hz => (mem_setDedup z ids).mp hz
    · rw [if_neg hnone] at h
      simp only [Except.ok.injEq] at h
      subst h
      intro z hz
      rcases List.mem_map.mp hz with ⟨v, hv, rfl⟩
      have hv' : v ∈ (setDedup ids).filterMap id :=
        (mem_stableSort _ v _).mp hv
      rcases List.mem_filterMap.mp hv' with ⟨a, ha, hav⟩
      have : a = some v := hav
      rw [← this]
      exact (mem_setDedup a ids).mp ha

theorem sortChainIds_complete (ids cids : List (Option Int)) (h : sortChainIds ids = .ok cids) :
    ∀ z ∈ ids, z ∈ cids := by
  unfold sortChainIds at h
  by_cases hg : ((setDedup ids).any (fun c => c.isNone)
      && (setDedup ids).any (fun c => c.isSome)) = true
  · rw [if_pos hg] at h
    cases h
  · rw [if_neg hg] at h
    by_cases hnone : ((setDedup ids).all fun c => c.isNone) = true
    · rw [if_pos hnone] at h
      simp only [Except.ok.injEq] at h
      subst h
      exact fun z hz => (mem_setDedup z ids).mpr hz
    · rw [if_neg hnone] at h
      simp only [Except.ok.injEq] at h
      subst h
      intro z hz
      have hzd : z ∈ setDedup ids := (mem_setDedup z ids).mpr hz
      have hzsome : z.isSome = true := by
        cases hzv : z with
        | some v => rfl
        | none =>
          exfalso
          apply hg
          rw [Bool.and_eq_true]
          constructor
          · exact List.any_eq_true.mpr ⟨z, hzd, by rw [hzv]; rfl⟩
          · have : ¬ ∀ c ∈ setDedup ids, c.isNone = true := by
              intro hc
              exact hnone (List.all_eq_true.mpr hc)
            rcases not_forall.mp this with ⟨c, hc⟩
            rcases not_forall.mp hc with ⟨hcmem, hcn⟩
            refine List.any_eq_true.mpr ⟨c, hcmem, ?_⟩
            cases hcv : c with
            | some v => rfl
            | none => exact absurd (by rw [hcv]; rfl) hcn
      obtain ⟨v, hv⟩ := Option.isSome_iff_exists.mp hzsome
      subst hv
      refine List.mem_map.mpr ⟨v, ?_, rfl⟩
      refine (mem_stableSort _ v _).mpr ?_
      exact List.mem_filterMap.mpr ⟨some v, hzd, rfl⟩

theorem sortChainIds_ok (ids : List (Option Int)) (hsome : ∀ z ∈ ids, z.isSome = true) :
    ∃ cids, sortChainIds ids = .ok cids := by
  simp only [sortChainIds]
  have hnone : ((setDedup ids).any fun c => c.isNone) = false := by
    rw [List.any_eq_false]
    intro c hc
    have := hsome c ((mem_setDedup c ids).mp hc)
    cases hcv : c with
    | some v => simp
    | none => rw [hcv] at this; cases this
  rw [hnone]
  simp only [Bool.false_and, Bool.false_eq_true, if_false]
  by_cases hall : ((setDedup ids).all fun c => c.isNone) = true
  · rw [if_pos hall]
    exact ⟨_, rfl⟩
  · rw [if_neg hall]
    exact ⟨_, rfl⟩

theorem processUnpaired_empty (hub : HubState) (hemp : hub.unpaired = []) :
    processUnpaired hub = .ok hub := by
  unfold processUnpaired
  rw [hemp]
  rfl

theorem createFold_inv (rrhs : List (List Iris)) (ci : Option Int) (err : Bool)
    (hub res : HubState)
    (h : rrhs.foldlM (fun hub g => create_chain hub ci g err) hub = .ok res) :
    res.serial = hub.serial ∧ res.macmatches = hub.macmatches ∧ res.unpaired = hub.unpaired ∧
    res.irises = hub.irises ∧ res.irises_by_serial = hub.irises_by_serial ∧
    (hub.error = true → res.error = true) ∧
    (∀ p ∈ res.chains, ∀ g ∈ p.2, (∃ gs₀, (p.1, gs₀) ∈ hub.chains ∧ g ∈ gs₀) ∨
      (p.1 = ci ∧ (∀ x ∈ groupMembers g, ∃ gr ∈ rrhs, x ∈ gr) ∧
        (isReference ci = true → g.isRRH = false))) := by
  induction rrhs generalizing hub with
  | nil =>
    rw [List.foldlM_nil, epure] at h
    simp only [Except.ok.injEq] at h
    subst h
    refine ⟨rfl, rfl, rfl, rfl, rfl, fun he => he, ?_⟩
    intro p hp g hg
    exact Or.inl ⟨p.2, by rwa [Prod.mk.eta], hg⟩
  | cons gr rest ih =>
    rw [List.foldlM_cons] at h
    cases hc : create_chain hub ci gr err with
    | error e =>
      rw [hc, ebind_err] at h
      cases h
    | ok mid =>
      rw [hc, ebind_ok] at h
      obtain ⟨f1, f2, f3, f4, f5, ferr, _, fprov⟩ := create_chain_inv hub ci gr err mid hc
      obtain ⟨g1, g2, g3, g4, g5, gerr, gprov⟩ := ih mid h
      refine ⟨g1.trans f1, g2.trans f2, g3.trans f3, g4.trans f4, g5.trans f5,
        fun he => gerr (ferr he), ?_⟩
      intro p hp g hg
      rcases gprov p hp g hg with ⟨gs₀, hgs₀, hging⟩ | ⟨hkey, hmem, hrr⟩
      · rcases fprov (p.1, gs₀) hgs₀ g hging with ⟨gs₁, hgs₁, hg1⟩ | ⟨hkey, hmem, hrr⟩
        · exact Or.inl ⟨gs₁, hgs₁, hg1⟩
        · exact Or.inr ⟨hkey, fun x hx => ⟨gr, List.mem_cons_self gr rest, hmem x hx⟩, hrr⟩
      · refine Or.inr ⟨hkey, fun x hx => ?_, hrr⟩
        obtain ⟨gr', hgr', hxg⟩ := hmem x hx
        exact ⟨gr', List.mem_cons_of_mem gr hgr', hxg⟩

theorem createFold_total (rrhs : List (List Iris)) (ci : Option Int) (err : Bool)
    (hcond : ∀ g ∈ rrhs, g ≠ [] → isReference ci = true ∨
      ((∀ x ∈ g, x.rrh_index.isSome = true) ∧
       (∃ c, ∀ x ∈ g, x.chain_index = some c) ∧
       (∀ x ∈ g, x.rrh_head = true →
         ∃ cf, x.rrh_config = some cf ∧ cf.serial?.isSome = true ∧ cf.chain?.isSome = true))) :
    ∀ hub, ∃ res, rrhs.foldlM (fun hub g => create_chain hub ci g err) hub = .ok res := by
  induction rrhs with
  | nil =>
    intro hub
    exact ⟨hub, by rw [List.foldlM_nil, epure]⟩
  | cons gr rest ih =>
    intro hub
    obtain ⟨mid, hmid⟩ := create_chain_total hub ci gr err (hcond gr (List.mem_cons_self gr rest))
    obtain ⟨res, hres⟩ := ih (fun g hg => hcond g (List.mem_cons_of_mem gr hg)) mid
    exact ⟨res, by rw [List.foldlM_cons, hmid, ebind_ok, hres]⟩

theorem processChain_inv (my : List Iris) (hub res : HubState) (chain : Option Int)
    (h : processChain my hub chain = .ok res) :
    res.serial = hub.serial ∧ res.macmatches = hub.macmatches ∧ res.unpaired = hub.unpaired ∧
    res.irises = hub.irises ∧ res.irises_by_serial = hub.irises_by_serial ∧
    (hub.error = true → res.error = true) ∧
    (∀ p ∈ res.chains, ∀ g ∈ p.2, (∃ gs₀, (p.1, gs₀) ∈ hub.chains ∧ g ∈ gs₀) ∨
      (p.1 = chain ∧
        (∀ x ∈ groupMembers g, x ∈ my.filter fun x => decide (x.chain_index = chain)) ∧
        (isReference chain = true → g.isRRH = false))) := by
  simp only [processChain] at h
  cases hsort : sortByRRHIndexE (my.filter fun x => decide (x.chain_index = chain)) with
  | error e =>
    rw [hsort, ebind_err] at h
    cases h
  | ok this_chain =>
    rw [hsort, ebind_ok] at h
    cases hfc : filter_chain_for_bad_indexes chain this_chain with
    | error e =>
      rw [hfc, ebind_err] at h
      cases h
    | ok fe =>
      obtain ⟨rrhs, error⟩ := fe
      rw [hfc, ebind_ok] at h
      have hmem_tc : ∀ x ∈ this_chain, x ∈ my.filter fun x => decide (x.chain_index = chain) :=
        fun x hx => (sortByRRHIndexE_inv _ this_chain hsort x).mp hx
      have hgr_mem : ∀ gr ∈ rrhs, ∀ x ∈ gr,
          x ∈ my.filter fun x => decide (x.chain_index = chain) :=
        fun gr hgr x hx => hmem_tc x (filter_chain_inv chain this_chain rrhs error hfc gr hgr x hx)
      set hub1 := if (rrhs, error).2 = true then { hub with error := true } else hub with hhub1
      have hfields1 : hub1.serial = hub.serial ∧ hub1.macmatches = hub.macmatches ∧
          hub1.unpaired = hub.unpaired ∧ hub1.irises = hub.irises ∧
          hub1.irises_by_serial = hub.irises_by_serial ∧ hub1.chains = hub.chains ∧
          (hub.error = true → hub1.error = true) := by
        rw [hhub1]
        by_cases he : (rrhs, error).2 = true
        · rw [if_pos he]
          exact ⟨rfl, rfl, rfl, rfl, rfl, rfl, fun _ => rfl⟩
        · rw [if_neg he]
          exact ⟨rfl, rfl, rfl, rfl, rfl, rfl, fun h => h⟩
      obtain ⟨g1, g2, g3, g4, g5, gerr, gprov⟩ := createFold_inv rrhs chain (rrhs, error).2 hub1 res h
      refine ⟨g1.trans hfields1.1, g2.trans hfields1.2.1, g3.trans hfields1.2.2.1,
        g4.trans hfields1.2.2.2.1, g5.trans hfields1.2.2.2.2.1,
        fun he => gerr (hfields1.2.2.2.2.2.2 he), ?_⟩
      intro p hp g hg
      rcases gprov p hp g hg with ⟨gs₀, hgs₀, hging⟩ | ⟨hkey, hmem, hrr⟩
      · rw [hfields1.2.2.2.2.2.1] at hgs₀
        exact Or.inl ⟨gs₀, hgs₀, hging⟩
      · refine Or.inr ⟨hkey, fun x hx => ?_, hrr⟩
        obtain ⟨gr, hgr, hxg⟩ := hmem x hx
        exact hgr_mem gr hgr x hxg

theorem processChain_error_mono (my : List Iris) (hub res : HubState) (chain : Option Int)
    (h : processChain my hub chain = .ok res) (he : hub.error = true) : res.error = true :=
  (processChain_inv my hub res chain h).2.2.2.2.2.1 he

theorem processChain_error_set (my : List Iris) (hub res : HubState) (chain : Option Int)
    (h : processChain my hub chain = .ok res) (sorted : List Iris)
    (hsort : sortByRRHIndexE (my.filter fun x => decide (x.chain_index = chain)) = .ok sorted)
    (rrhs : List (List Iris))
    (hfc : filter_chain_for_bad_indexes chain sorted = .ok (rrhs, true)) :
    res.error = true := by
  simp only [processChain] at h
  rw [hsort, ebind_ok, hfc, ebind_ok] at h
  simp only [if_pos] at h
  obtain ⟨_, _, _, _, _, gerr, _⟩ := createFold_inv rrhs chain (rrhs, true).2
    { hub with error := true } res h
  exact gerr rfl

theorem processChain_total (my : List Iris) (hwf : ∀ x ∈ my, x.wellFetched = true)
    (hub : HubState) (chain : Option Int) :
    ∃ res, processChain my hub chain = .ok res := by
  have hgrp_sub : ∀ x ∈ my.filter (fun x => decide (x.chain_index = chain)), x ∈ my :=
    fun x hx => List.mem_of_mem_filter hx
  have hgrp_chain : ∀ x ∈ my.filter (fun x => decide (x.chain_index = chain)),
      x.chain_index = chain := by
    intro x hx
    have := List.of_mem_filter hx
    simpa using this
  have hall : ∀ x ∈ my.filter (fun x => decide (x.chain_index = chain)),
      x.rrh_index.isSome = true := by
    intro x hx
    have hw := hwf x (hgrp_sub x hx)
    unfold Iris.wellFetched at hw
    simp only [Bool.and_eq_true] at hw
    exact hw.1.1.2
  have hsorted_mem : ∀ x ∈ stableSort (fun a b => optIntLe a.rrh_index b.rrh_index)
        (my.filter (fun x => decide (x.chain_index = chain))),
      x ∈ my.filter (fun x => decide (x.chain_index = chain)) :=
    fun x hx => (mem_stableSort _ x _).mp hx
  have hall_s : ∀ x ∈ stableSort (fun a b => optIntLe a.rrh_index b.rrh_index)
        (my.filter (fun x => decide (x.chain_index = chain))),
      x.rrh_index.isSome = true :=
    fun x hx => hall x (hsorted_mem x hx)
  have hcfg_of_wf : ∀ x : Iris, x.wellFetched = true → x.rrh_head = true →
      ∃ cf, x.rrh_config = some cf ∧ cf.serial?.isSome = true ∧ cf.chain?.isSome = true := by
    intro x hw hh
    unfold Iris.wellFetched at hw
    simp only [Bool.and_eq_true] at hw
    have := hw.2
    rw [if_pos hh] at this
    cases hcf : x.rrh_config with
    | none => rw [hcf] at this; cases this
    | some cf =>
      rw [hcf] at this
      rw [Bool.and_eq_true] at this
      exact ⟨cf, rfl, this.1, this.2⟩
  have hcond : ∀ g : List Iris,
      (∀ x ∈ g, x ∈ my.filter (fun x => decide (x.chain_index = chain))) → g ≠ [] →
      isReference chain = true ∨
      ((∀ x ∈ g, x.rrh_index.isSome = true) ∧
       (∃ c, ∀ x ∈ g, x.chain_index = some c) ∧
       (∀ x ∈ g, x.rrh_head = true →
         ∃ cf, x.rrh_config = some cf ∧ cf.serial?.isSome = true ∧ cf.chain?.isSome = true)) := by
    intro g hsub hne
    right
    obtain ⟨x0, hx0⟩ := List.exists_mem_of_ne_nil g hne
    have hx0grp := hsub x0 hx0
    have hx0some : (x0.chain_index).isSome = true := by
      have hw := hwf x0 (hgrp_sub x0 hx0grp)
      unfold Iris.wellFetched at hw
      simp only [Bool.and_eq_true] at hw
      exact hw.1.2
    obtain ⟨cv, hcv⟩ := Option.isSome_iff_exists.mp hx0some
    have hchain_eq : chain = some cv := by
      rw [← hgrp_chain x0 hx0grp, hcv]
    refine ⟨fun x hx => hall x (hsub x hx), ⟨cv, fun x hx => ?_⟩,
      fun x hx => hcfg_of_wf x (hwf x (hgrp_sub x (hsub x hx)))⟩
    rw [hgrp_chain x (hsub x hx), hchain_eq]
  have hfc : ∃ rrhs err, filter_chain_for_bad_indexes chain
        (stableSort (fun a b => optIntLe a.rrh_index b.rrh_index)
          (my.filter (fun x => decide (x.chain_index = chain)))) = .ok (rrhs, err) ∧
      ∀ g ∈ rrhs, ∀ x ∈ g, x ∈ stableSort (fun a b => optIntLe a.rrh_index b.rrh_index)
        (my.filter (fun x => decide (x.chain_index = chain))) := by
    by_cases href : isReference chain = true
    · refine ⟨[stableSort (fun a b => optIntLe a.rrh_index b.rrh_index)
          (my.filter (fun x => decide (x.chain_index = chain)))], false, ?_, ?_⟩
      · unfold filter_chain_for_bad_indexes
        rw [href]
        simp
      · intro g hg
        rcases List.mem_singleton.mp hg with rfl
        exact fun x hx => hx
    · have hcfgs : ∀ hd ∈ RRH.get_heads (stableSort (fun a b => optIntLe a.rrh_index b.rrh_index)
          (my.filter (fun x => decide (x.chain_index = chain)))), hd.rrh_config.isSome = true := by
        intro hd hhd
        have hdmem : hd ∈ stableSort (fun a b => optIntLe a.rrh_index b.rrh_index)
            (my.filter (fun x => decide (x.chain_index = chain))) := List.mem_of_mem_filter hhd
        have hdhead : hd.rrh_head = true := by
          have := List.of_mem_filter hhd
          simpa using this
        obtain ⟨cf, hcf, _, _⟩ :=
          hcfg_of_wf hd (hwf hd (hgrp_sub hd (hsorted_mem hd hdmem))) hdhead
        rw [hcf]
        rfl
      obtain ⟨rrhs, hfc1, hmem1⟩ := filter_chain_eq chain _ (by simpa using href) hcfgs hall_s
      exact ⟨rrhs, _, hfc1, hmem1⟩
  obtain ⟨rrhs, err, hfceq, hmemr⟩ := hfc
  obtain ⟨res, hres⟩ := createFold_total rrhs chain err
    (fun g hg hne => hcond g (fun x hx => hsorted_mem x (hmemr g hg x hx)) hne)
    (if err = true then { hub with error := true } else hub)
  refine ⟨res, ?_⟩
  simp only [processChain]
  rw [sortByRRHIndexE_ok _ hall, ebind_ok, hfceq, ebind_ok]
  exact hres

/-! ## `_map_irises` as a whole -/

theorem chainFold_inv (cids : List (Option Int)) (my : List Iris) (hub res : HubState)
    (h : cids.foldlM (processChain my) hub = .ok res) :
    res.serial = hub.serial ∧ res.macmatches = hub.macmatches ∧ res.unpaired = hub.unpaired ∧
    res.irises = hub.irises ∧ res.irises_by_serial = hub.irises_by_serial ∧
    (hub.error = true → res.error = true) ∧
    (∀ p ∈ res.chains, ∀ g ∈ p.2, (∃ gs₀, (p.1, gs₀) ∈ hub.chains ∧ g ∈ gs₀) ∨
      (p.1 ∈ cids ∧
        (∀ x ∈ groupMembers g, x ∈ my.filter fun x => decide (x.chain_index = p.1)) ∧
        (isReference p.1 = true → g.isRRH = false))) := by
  induction cids generalizing hub with
  | nil =>
    rw [List.foldlM_nil, epure] at h
    simp only [Except.ok.injEq] at h
    subst h
    refine ⟨rfl, rfl, rfl, rfl, rfl, fun he => he, ?_⟩
    intro p hp g hg
    exact Or.inl ⟨p.2, by rwa [Prod.mk.eta], hg⟩
  | cons c rest ih =>
    rw [List.foldlM_cons] at h
    cases hc : processChain my hub c with
    | error e =>
      rw [hc, ebind_err] at h
      cases h
    | ok mid =>
      rw [hc, ebind_ok] at h
      obtain ⟨f1, f2, f3, f4, f5, ferr, fprov⟩ := processChain_inv my hub mid c hc
      obtain ⟨g1, g2, g3, g4, g5, gerr, gprov⟩ := ih mid h
      refine ⟨g1.trans f1, g2.trans f2, g3.trans f3, g4.trans f4, g5.trans f5,
        fun he => gerr (ferr he), ?_⟩
      intro p hp g hg
      rcases gprov p hp g hg with ⟨gs₀, hgs₀, hging⟩ | ⟨hkey, hmem, hrr⟩
      · rcases fprov (p.1, gs₀) hgs₀ g hging with ⟨gs₁, hgs₁, hg1⟩ | ⟨hkey, hmem, hrr⟩
        · exact Or.inl ⟨gs₁, hgs₁, hg1⟩
        · refine Or.inr ⟨?_, ?_, ?_⟩
          · rw [hkey]
            exact List.mem_cons_self c rest
          · rw [hkey]
            exact hmem
          · rw [hkey]
            exact hrr
      · exact Or.inr ⟨List.mem_cons_of_mem c hkey, hmem, hrr⟩

theorem chainFold_total (cids : List (Option Int)) (my : List Iris)
    (hwf : ∀ x ∈ my, x.wellFetched = true) :
    ∀ hub, ∃ res, cids.foldlM (processChain my) hub = .ok res := by
  induction cids with
  | nil =>
    intro hub
    exact ⟨hub, by rw [List.foldlM_nil, epure]⟩
  | cons c rest ih =>
    intro hub
    obtain ⟨mid, hmid⟩ := processChain_total my hwf hub c
    obtain ⟨res, hres⟩ := ih mid
    exact ⟨res, by rw [List.foldlM_cons, hmid, ebind_ok, hres]⟩

theorem chainFold_error (cids : List (Option Int)) (my : List Iris) (c : Option Int)
    (hub res : HubState) (h : cids.foldlM (processChain my) hub = .ok res) (hc : c ∈ cids)
    (hstep : ∀ hub' res', processChain my hub' c = .ok res' → res'.error = true) :
    res.error = true := by
  induction cids generalizing hub with
  | nil => cases hc
  | cons d rest ih =>
    rw [List.foldlM_cons] at h
    cases hd : processChain my hub d with
    | error e =>
      rw [hd, ebind_err] at h
      cases h
    | ok mid =>
      rw [hd, ebind_ok] at h
      rcases List.mem_cons.mp hc with rfl | hcrest
      · have hmid : mid.error = true := hstep hub mid hd
        have hmono : ∀ (l : List (Option Int)) (a b : HubState),
            l.foldlM (processChain my) a = .ok b → a.error = true → b.error = true := by
          intro l
          induction l with
          | nil =>
            intro a b hab ha
            rw [List.foldlM_nil, epure] at hab
            simp only [Except.ok.injEq] at hab
            rwa [← hab]
          | cons e es ihe =>
            intro a b hab ha
            rw [List.foldlM_cons] at hab
            cases he : processChain my a e with
            | error er =>
              rw [he, ebind_err] at hab
              cases hab
            | ok m =>
              rw [he, ebind_ok] at hab
              exact ihe m b hab (processChain_error_mono my a m e he ha)
        exact hmono rest mid res h hmid
      · exact ih mid h hcrest

theorem map_irises_inv (hub : HubState) (irises : List Iris) (res : HubState)
    (h : map_irises hub irises = .ok res) :
    res.unpaired = [] ∧ res.serial = hub.serial ∧ res.macmatches = hub.macmatches ∧
    (∀ p ∈ res.chains, ∀ g ∈ p.2,
      (∃ gs₀, (p.1, gs₀) ∈ hub.chains ∧ g ∈ gs₀) ∨
      (p.1 ∈ (irises.filter (macMatchesHub hub.macmatches)).map (fun x => x.chain_index) ∧
       (∀ x ∈ groupMembers g,
          x ∈ (irises.filter (macMatchesHub hub.macmatches)).filter
            (fun x => decide (x.chain_index = p.1))) ∧
       (isReference p.1 = true → g.isRRH = false))) := by
  simp only [map_irises] at h
  cases hcs : sortChainIds ((irises.filter (macMatchesHub hub.macmatches)).map
      fun x => x.chain_index) with
  | error e =>
    rw [hcs, ebind_err] at h
    cases h
  | ok cids =>
    rw [hcs, ebind_ok] at h
    cases hfold : cids.foldlM (processChain (irises.filter (macMatchesHub hub.macmatches)))
        { hub with
          irises := irises.filter (macMatchesHub hub.macmatches)
          irises_by_serial := (irises.filter (macMatchesHub hub.macmatches)).foldl
            (fun m i => dictInsert m i.serial i) []
          unpaired := [] } with
    | error e =>
      rw [hfold, ebind_err] at h
      cases h
    | ok hub2 =>
      rw [hfold, ebind_ok] at h
      obtain ⟨g1, g2, g3, g4, g5, gerr, gprov⟩ := chainFold_inv cids _ _ hub2 hfold
      have hunp2 : hub2.unpaired = [] := g3
      rw [processUnpaired_empty hub2 hunp2] at h
      simp only [Except.ok.injEq] at h
      subst h
      refine ⟨hunp2, g1, g2, ?_⟩
      intro p hp g hg
      rcases gprov p hp g hg with ⟨gs₀, hgs₀, hging⟩ | ⟨hkey, hmem, hrr⟩
      · exact Or.inl ⟨gs₀, hgs₀, hging⟩
      · exact Or.inr ⟨sortChainIds_mem _ cids hcs p.1 hkey, hmem, hrr⟩

theorem map_irises_total (hub : HubState) (irises : List Iris)
    (hwf : ∀ x ∈ irises, x.wellFetched = true) :
    ∃ res, map_irises hub irises = .ok res := by
  have hwf_my : ∀ x ∈ irises.filter (macMatchesHub hub.macmatches), x.wellFetched = true :=
    fun x hx => hwf x (List.mem_of_mem_filter hx)
  have hids : ∀ z ∈ (irises.filter (macMatchesHub hub.macmatches)).map
      (fun x => x.chain_index), z.isSome = true := by
    intro z hz
    rcases List.mem_map.mp hz with ⟨x, hx, rfl⟩
    have hw := hwf_my x hx
    unfold Iris.wellFetched at hw
    simp only [Bool.and_eq_true] at hw
    exact hw.1.2
  obtain ⟨cids, hcids⟩ := sortChainIds_ok _ hids
  obtain ⟨hub2, hfold⟩ := chainFold_total cids _ hwf_my
    { hub with
      irises := irises.filter (macMatchesHub hub.macmatches)
      irises_by_serial := (irises.filter (macMatchesHub hub.macmatches)).foldl
        (fun m i => dictInsert m i.serial i) []
      unpaired := [] }
  have hunp2 : hub2.unpaired = [] := (chainFold_inv cids _ _ hub2 hfold).2.2.1
  refine ⟨hub2, ?_⟩
  simp only [map_irises]
  rw [hcids, ebind_ok, hfold, ebind_ok]
  exact processUnpaired_empty hub2 hunp2

/-! ## Claim C3: `config_correct` -/

/-- C3 counterexample: a chain whose head lists two members but where only
the first is observed gets `config_correct = true` (the `zip` pairing
truncates to the shorter list), while the claim demands falsity whenever the
lengths disagree. -/
theorem C3_config_correct_counterexample :
    (RRH_init [cx3node]).map (fun r => r.config_correct) = .ok true ∧
    (RRH_init [cx3node]).map (fun r => r.nodes.map fun x => x.serial) = .ok ["A"] ∧
    (RRH_init [cx3node]).map (fun r => r.config_chain) = .ok ["A", "B"] ∧
    ["A"] ≠ ["A", "B"] := by
  refine ⟨by decide, by decide, by decide, by decide⟩

/-- C3 amended: for a validated chain, `config_correct` is true iff the
observed serials sorted by position agree with the head's authoritative list
at every position up to the shorter of the two lengths; a disagreement in
length alone does not make it false, the chain stays validated either way,
and the value depends only on the chain's own members and configuration. -/
theorem C3_config_correct_iff (members : List Iris) (r : RRHData)
    (h : RRH_init members = .ok r) :
    r.config_correct = true ↔
      ∀ i : Nat, i < min (r.nodes.length) (r.config_chain.length) →
        (r.nodes.map fun x => x.serial)[i]? = r.config_chain[i]? := by
  obtain ⟨_, hcc, _⟩ := RRH_init_ok_inv members r h
  rw [hcc, List.all_eq_true]
  constructor
  · intro hall i hi
    have hiA : i < (r.nodes.map fun x => x.serial).length := by
      rw [List.length_map]
      omega
    have hiB : i < r.config_chain.length := by omega
    have hizip : i < ((r.nodes.map fun x => x.serial).zip r.config_chain).length := by
      rw [List.length_zip, List.length_map]
      omega
    have hmem : ((r.nodes.map fun x => x.serial).zip r.config_chain)[i]
        ∈ (r.nodes.map fun x => x.serial).zip r.config_chain := List.getElem_mem hizip
    have := hall _ hmem
    rw [List.getElem_zip] at this
    simp only [decide_eq_true_eq] at this
    rw [List.getElem?_eq_getElem hiA, List.getElem?_eq_getElem hiB, this]
  · intro hidx x hx
    rcases List.mem_iff_getElem.mp hx with ⟨i, hi, rfl⟩
    have hlen : i < min (r.nodes.length) (r.config_chain.length) := by
      rw [List.length_zip, List.length_map] at hi
      omega
    have hiA : i < (r.nodes.map fun x => x.serial).length := by
      rw [List.length_map]
      omega
    have hiB : i < r.config_chain.length := by omega
    have := hidx i hlen
    rw [List.getElem?_eq_getElem hiA, List.getElem?_eq_getElem hiB] at this
    simp only [Option.some.injEq] at this
    rw [List.getElem_zip]
    simpa using this

/-- Witness for C3 at a one-member chain whose configuration lists exactly
that member. -/
theorem C3_config_correct_iff_witness :
    RRH_init [w3node] = .ok w3rrh ∧ w3rrh.config_correct = true :=
  ⟨by decide, (C3_config_correct_iff [w3node] w3rrh (by decide)).mpr (by decide)⟩

/-! ## Claim C8: the reference slot -/

/-- C8: nodes with the reserved reference chain identifier are never
chain-reconciled: the bad-index filter passes the group through untouched
with no head identification and no error, `create_chain` installs it verbatim
as a position→node `Chain` (never attempting an `RRH`), and after
`_map_irises` no validated chain ever sits at the reference slot. -/
theorem C8_reference_slot (tc : List Iris) (hub hub2 : HubState) (nodes : List Iris)
    (err : Bool) (irises : List Iris) (res : HubState) :
    (filter_chain_for_bad_indexes (some 6) tc = .ok ([tc], false)) ∧
    (nodes ≠ [] → create_chain hub2 (some 6) nodes err
        = .ok { hub2 with
            chains := installChain hub2.chains (some 6) (.chain (buildPosMap nodes) err),
            error := hub2.error || err }) ∧
    (hub.chains = [] → map_irises hub irises = .ok res →
      ∀ gs, (some 6, gs) ∈ res.chains → ∀ g ∈ gs, g.isRRH = false) := by
  refine ⟨rfl, ?_, ?_⟩
  · intro hne
    exact create_chain_reference hub2 (some 6) nodes err (by decide) hne
  · intro hchains hok gs hmem g hg
    obtain ⟨_, _, _, hprov⟩ := map_irises_inv hub irises res hok
    rcases hprov (some 6, gs) hmem g hg with ⟨gs₀, hgs₀, _⟩ | ⟨_, _, hrr⟩
    · rw [hchains] at hgs₀
      exact absurd hgs₀ (List.not_mem_nil _)
    · exact hrr rfl

/-- Witness for C8: a reference-slot node passes the filter untouched, a
group is installed verbatim at slot 6, and the reconciled hub holds no
validated chain at the reference slot. -/
theorem C8_reference_slot_witness :
    filter_chain_for_bad_indexes (some 6) [w8ref] = .ok ([[w8ref]], false) ∧
    create_chain w8hub (some 6) [w8x] false
      = .ok { w8hub with
          chains := installChain w8hub.chains (some 6) (.chain (buildPosMap [w8x]) false),
          error := w8hub.error || false } ∧
    (map_irises w8hub [w8ref]).map
      (fun res => decide (∀ p ∈ res.chains, p.1 = some 6 → ∀ g ∈ p.2, g.isRRH = false))
      = .ok true := by
  refine ⟨(C8_reference_slot [w8ref] w8hub w8hub [w8x] false [w8ref] w8hub).1,
    (C8_reference_slot [w8ref] w8hub w8hub [w8x] false [w8ref] w8hub).2.1 (by decide), ?_⟩
  cases hok : map_irises w8hub [w8ref] with
  | error e =>
    exfalso
    have hokb : isOkB (map_irises w8hub [w8ref]) = true := by decide
    rw [hok] at hokb
    cases hokb
  | ok res =>
    have h3 := (C8_reference_slot [w8ref] w8hub w8hub [w8x] false [w8ref] res).2.2 rfl hok
    simp only [Except.map, Except.ok.injEq, decide_eq_true_eq]
    intro p hp hp6 g hg
    have hp' : (p.1, p.2) ∈ res.chains := by rwa [Prod.mk.eta]
    rw [hp6] at hp'
    exact h3 p.2 hp' g hg

/-! ## Claim C1: no recovery policy for zero or multiple heads -/

/-- C1 counterexample: a slot-3 group with two head candidates, the second
head's authoritative list naming the plain member M.  Reconciliation keeps
every node inside the slot-3 groups, leaves the unpaired bucket empty, and
installs nothing at any slot derived from LAST_POSSIBLE_CHAIN: no member is
removed, position-shifted, or re-emitted at a reserved index.  Both emitted
sub-groups even reconcile as validated `RRH` chains with their error flags
clear, and the hub error flag stays clear. -/
theorem C1_recovery_policy_counterexample :
    (map_irises c1hub [c1H1, c1H2, c1M]).map (fun res => res.chains.map (fun p => p.1))
        = .ok [some 3] ∧
    (map_irises c1hub [c1H1, c1H2, c1M]).map (fun res => res.unpaired) = .ok [] ∧
    (map_irises c1hub [c1H1, c1H2, c1M]).map (fun res =>
        res.chains.map (fun p => p.2.map (fun g => (groupMembers g).map (fun x => x.serial))))
      = .ok [[["H1"], ["H2", "M"]]] ∧
    (map_irises c1hub [c1H1, c1H2, c1M]).map (fun res =>
        res.chains.map (fun p => p.2.map (fun g => (g.isRRH, groupError g))))
      = .ok [[(true, false), (true, false)]] ∧
    (map_irises c1hub [c1H1, c1H2, c1M]).map (fun res => res.error) = .ok false ∧
    (map_irises c1hub [c1H1, c1H2, c1M]).map (fun res =>
        decide (∀ p ∈ res.chains, p.1 ≠ some LAST_POSSIBLE_CHAIN)) = .ok true :=
  ⟨by decide, by decide, by decide, by decide, by decide, by decide⟩

/-- C1 (amended): the head-candidate recovery is a split, not a removal: the
bad-index filter only partitions the group's nodes into sub-groups, every node
of every emitted sub-group is a node of the original group; each sub-group is
then reconciled on its own at the group's own slot (it may well validate, as
in the counterexample run); after reconciliation the unpaired bucket is
empty; and starting from a hub with no chains, every nonempty slot of the
result is a chain identifier reported by one of the hub's own
fingerprint-matched irises, so no group is ever emitted at a slot derived
from LAST_POSSIBLE_CHAIN. -/
theorem C1_no_recovery_policy (ci : Option Int) (tc : List Iris)
    (rrhs : List (List Iris)) (err : Bool) (hub : HubState) (irises : List Iris)
    (res : HubState)
    (hf : filter_chain_for_bad_indexes ci tc = .ok (rrhs, err))
    (hok : map_irises hub irises = .ok res) :
    (∀ g ∈ rrhs, ∀ x ∈ g, x ∈ tc) ∧
    res.unpaired = [] ∧
    (hub.chains = [] → ∀ p ∈ res.chains, p.2 ≠ [] →
      p.1 ∈ (irises.filter (macMatchesHub hub.macmatches)).map (fun x => x.chain_index)) := by
  obtain ⟨hunp, _, _, hprov⟩ := map_irises_inv hub irises res hok
  refine ⟨filter_chain_inv ci tc rrhs err hf, hunp, ?_⟩
  intro hchains p hp hne
  obtain ⟨g, hg⟩ : ∃ g, g ∈ p.2 := by
    cases hp2 : p.2 with
    | nil => exact absurd hp2 hne
    | cons a l => exact ⟨a, hp2 ▸ List.mem_cons_self a l⟩
  rcases hprov p hp g hg with ⟨gs₀, hgs₀, _⟩ | ⟨hkey, _, _⟩
  · rw [hchains] at hgs₀
    exact absurd hgs₀ (List.not_mem_nil _)
  · exact hkey

/-- Witness for C1 (amended), at a single well-formed node on its own chain. -/
theorem C1_no_recovery_policy_witness :
    (filter_chain_for_bad_indexes (some 0) [w1n] = .ok ([[w1n]], false)) ∧
    (map_irises w1hub [w1n]).map
      (fun res => decide (res.unpaired = [] ∧ ∀ p ∈ res.chains, p.2 ≠ [] →
        p.1 ∈ ([w1n].filter (macMatchesHub w1hub.macmatches)).map (fun x => x.chain_index)))
      = .ok true := by
  refine ⟨by decide, ?_⟩
  cases hok : map_irises w1hub [w1n] with
  | error e =>
    exfalso
    have hokb : isOkB (map_irises w1hub [w1n]) = true := by decide
    rw [hok] at hokb
    cases hokb
  | ok res =>
    have h := C1_no_recovery_policy (some 0) [w1n] [[w1n]] false w1hub [w1n] res
      (by decide) hok
    simp only [Except.map, Except.ok.injEq, decide_eq_true_eq]
    exact ⟨h.2.1, h.2.2 rfl⟩

/-! ## Claim C5: failed fetches and chain membership -/

/-- C5 counterexample: a status document carrying a gateway address but no
global indices.  The fetch reports failure, yet the gateway address was
already recorded, so the device matches the hub's fingerprint set and lands
in the hub's chain-slot mapping (under the absent chain key) after
reconciliation.  And two such devices on one hub abort reconciliation
outright: `sorted` compares their two `None` position keys and raises
`TypeError`. -/
theorem C5_failed_fetch_counterexample :
    (iris_afetch (Iris.fresh "X") (some cx5doc)).2 = false ∧
    (map_irises cx5hub [(iris_afetch (Iris.fresh "X") (some cx5doc)).1]).map
      (fun res => irisInChains "X" res.chains) = .ok true ∧
    map_irises cx5hub2 [(iris_afetch (Iris.fresh "X") (some cx5doc)).1,
        (iris_afetch (Iris.fresh "Y") (some cx5doc2)).1]
      = .error (.typeError "not supported between instances of NoneType and NoneType") :=
  ⟨by decide, by decide, by decide⟩

/-- C5 (amended): a device whose fetch fails before the gateway address is
decoded keeps `last_mac = None`: a wholly absent document leaves the device
unchanged with a failure flag (no exception), such a device matches no hub
fingerprint set, and starting from a hub with no chains it appears in no
chain group after reconciliation.  A fetch that fails after the gateway
address is decoded leaves the fingerprint set and gives no such guarantee. -/
theorem C5_failed_fetch (x : Iris) (mm : List Nat) (hub : HubState)
    (irises : List Iris) (res : HubState) (hmac : x.last_mac = none) :
    (iris_afetch x none = (x, false)) ∧
    (macMatchesHub mm x = false) ∧
    (hub.chains = [] → map_irises hub irises = .ok res →
      ∀ p ∈ res.chains, ∀ g ∈ p.2, x ∉ groupMembers g) := by
  refine ⟨rfl, by simp only [macMatchesHub, hmac], ?_⟩
  intro hchains hok p hp g hg hxin
  obtain ⟨_, _, _, hprov⟩ := map_irises_inv hub irises res hok
  rcases hprov p hp g hg with ⟨gs₀, hgs₀, _⟩ | ⟨_, hmem, _⟩
  · rw [hchains] at hgs₀
    exact absurd hgs₀ (List.not_mem_nil _)
  · have hx := List.mem_of_mem_filter (hmem x hxin)
    have hmt : macMatchesHub hub.macmatches x = true := (List.mem_filter.mp hx).2
    simp only [macMatchesHub, hmac] at hmt
    cases hmt

/-- Witness for C5 (amended): an unfetched device against a fresh hub. -/
theorem C5_failed_fetch_witness :
    w5x.last_mac = none ∧
    (iris_afetch w5x none = (w5x, false) ∧
     macMatchesHub w5hub.macmatches w5x = false) ∧
    (map_irises w5hub [w5x]).map
      (fun res => decide (∀ p ∈ res.chains, ∀ g ∈ p.2, w5x ∉ groupMembers g)) = .ok true := by
  refine ⟨rfl, ⟨(C5_failed_fetch w5x w5hub.macmatches w5hub [w5x] w5hub rfl).1,
    (C5_failed_fetch w5x w5hub.macmatches w5hub [w5x] w5hub rfl).2.1⟩, ?_⟩
  cases hok : map_irises w5hub [w5x] with
  | error e =>
    exfalso
    have hokb : isOkB (map_irises w5hub [w5x]) = true := by decide
    rw [hok] at hokb
    cases hokb
  | ok res =>
    have h := (C5_failed_fetch w5x w5hub.macmatches w5hub [w5x] res rfl).2.2 rfl hok
    simp only [Except.map, Except.ok.injEq, decide_eq_true_eq]
    exact h

/-! ## Claim C6: negative decoded positions -/

/-- C6 counterexample: a slot-3 group whose head carries an empty configured
member list and whose plain member reports position -1.  Reconciliation
completes with the hub error flag clear and every group error flag clear:
the negative index goes unreported because the head has nothing to scan. -/
theorem C6_negative_index_counterexample :
    cx6M.rrh_index = some (-1) ∧
    (map_irises cx6hub [cx6H, cx6M]).map (fun res => res.error) = .ok false ∧
    (map_irises cx6hub [cx6H, cx6M]).map
      (fun res => decide (∀ p ∈ res.chains, ∀ g ∈ p.2, groupError g = false)) = .ok true :=
  ⟨by decide, by decide, by decide⟩

/-- C6 (amended): for a non-reference chain group, a negative decoded
position sets the hub error flag only when some head candidate of the sorted
group also carries a nonempty configured member list; under that extra
condition the error is reported whatever the rest of head resolution does. -/
theorem C6_negative_index (hub : HubState) (irises : List Iris) (res : HubState)
    (c : Option Int) (sorted : List Iris)
    (hok : map_irises hub irises = .ok res)
    (hc : c ∈ (irises.filter (macMatchesHub hub.macmatches)).map (fun x => x.chain_index))
    (href : isReference c = false)
    (hsort : sortByRRHIndexE ((irises.filter (macMatchesHub hub.macmatches)).filter
        (fun x => decide (x.chain_index = c))) = .ok sorted)
    (hcfgs : ∀ h ∈ RRH.get_heads sorted, h.rrh_config.isSome = true)
    (hall : ∀ x ∈ sorted, x.rrh_index.isSome = true)
    (hcfg : (RRH.get_heads sorted).any cfgNonempty = true)
    (hneg : sorted.any negIdx = true) :
    res.error = true := by
  simp only [map_irises] at hok
  cases hcs : sortChainIds ((irises.filter (macMatchesHub hub.macmatches)).map
      fun x => x.chain_index) with
  | error e =>
    rw [hcs, ebind_err] at hok
    cases hok
  | ok cids =>
    rw [hcs, ebind_ok] at hok
    cases hfold : cids.foldlM (processChain (irises.filter (macMatchesHub hub.macmatches)))
        { hub with
          irises := irises.filter (macMatchesHub hub.macmatches)
          irises_by_serial := (irises.filter (macMatchesHub hub.macmatches)).foldl
            (fun m i => dictInsert m i.serial i) []
          unpaired := [] } with
    | error e =>
      rw [hfold, ebind_err] at hok
      cases hok
    | ok hub2 =>
      rw [hfold, ebind_ok] at hok
      have hunp2 : hub2.unpaired = [] := (chainFold_inv cids _ _ hub2 hfold).2.2.1
      rw [processUnpaired_empty hub2 hunp2] at hok
      simp only [Except.ok.injEq] at hok
      subst hok
      refine chainFold_error cids _ c _ hub2 hfold (sortChainIds_complete _ cids hcs c hc) ?_
      intro hub' res' hpc
      obtain ⟨rrhs, hfc, _⟩ := filter_chain_eq c sorted href hcfgs hall
      rw [hcfg, hneg, Bool.and_self] at hfc
      exact processChain_error_set _ hub' res' c hpc sorted hsort rrhs hfc

/-- Witness for C6 (amended): the same scenario with the head's configured
member list nonempty does set the hub error flag. -/
theorem C6_negative_index_witness :
    (map_irises w6hub [w6H, w6M]).map (fun res => res.error) = .ok true := by
  cases hok : map_irises w6hub [w6H, w6M] with
  | error e =>
    exfalso
    have hokb : isOkB (map_irises w6hub [w6H, w6M]) = true := by decide
    rw [hok] at hokb
    cases hokb
  | ok res =>
    have h := C6_negative_index w6hub [w6H, w6M] res (some 3) [w6M, w6H] hok
      (by decide) (by decide) (by decide) (by decide) (by decide) (by decide) (by decide)
    simp only [Except.map, Except.ok.injEq]
    exact h

/-! ## Claim C2: which failures propagate out of mapping -/

/-- C2 counterexample: one hub and one fingerprint-matched head whose
configuration block lacks the member list.  The whole mapping stage aborts
with `KeyError "chain"`: a per-group defect escapes the reconciler, so the
double-claim violation is not the only hard failure. -/
theorem C2_hard_failure_counterexample :
    discoverMap [cx2hub] [cx2H] = .error (.keyError "chain") := by
  decide

/-- C2 (amended): a device matching two hubs aborts with an `AssertionError`
naming both hubs, and mapping/reconciliation absorbs per-device and per-group
defects as error flags — but only for devices whose configuration blocks are
well-formed; a head missing its config keys escapes as an uncaught
`KeyError`. -/
theorem C2_hard_failures (i : Iris) (h1 h2 : HubState) (hub : HubState)
    (irises : List Iris) (hi : i.hub = none)
    (hm1 : macMatchesHub h1.macmatches i = true)
    (hm2 : macMatchesHub h2.macmatches i = true) :
    map_to_hub i [h1, h2]
      = .error (.assertionError ("Remapping iris from " ++ h1.serial ++ " to " ++ h2.serial)) ∧
    ((∀ x ∈ irises, x.wellFetched = true) → ∃ res, map_irises hub irises = .ok res) := by
  constructor
  · have hm2' : macMatchesHub h2.macmatches { i with hub := some h1.serial } = true := hm2
    simp only [map_to_hub, List.foldlM_cons, List.foldlM_nil, hm1, hm2', if_true, hi, epure,
      ebind_ok, ebind_err]
  · exact fun hwf => map_irises_total hub irises hwf

/-- Witness for C2 (amended): a device matched by two fresh hubs, and a
well-formed head that reconciles without an exception. -/
theorem C2_hard_failures_witness :
    map_to_hub w2iris [w2h1, w2h2]
      = .error (.assertionError ("Remapping iris from " ++ w2h1.serial ++ " to "
          ++ w2h2.serial)) ∧
    isOkB (map_irises w2hub [w2wfiris]) = true := by
  refine ⟨(C2_hard_failures w2iris w2h1 w2h2 w2hub [w2wfiris] rfl (by decide) (by decide)).1, ?_⟩
  obtain ⟨res, hres⟩ :=
    (C2_hard_failures w2iris w2h1 w2h2 w2hub [w2wfiris] rfl (by decide) (by decide)).2 (by decide)
  rw [hres]
  rfl

/-! ## Claim C10: traversal order -/

theorem pair_sublist_append {α : Type} (a b : α) (l₁ l₂ : List α)
    (ha : a ∈ l₁) (hb : b ∈ l₂) : List.Sublist [a, b] (l₁ ++ l₂) :=
  List.Sublist.append (List.singleton_sublist.mpr ha) (List.singleton_sublist.mpr hb)

theorem groupWalk_flatten_sublist (h : HubState) (p : Option Int × List ChainGroup)
    (g : ChainGroup) (d : Option Int) (hp : p ∈ h.chains) (hg : g ∈ p.2) :
    List.Sublist (groupWalk g d)
      ((h.chains.map fun q => (q.2.map fun g => groupWalk g d).flatten).flatten) := by
  have h1 : groupWalk g d ∈ p.2.map fun g => groupWalk g d := List.mem_map_of_mem _ hg
  have h3 : ((p.2.map fun g => groupWalk g d).flatten)
      ∈ h.chains.map fun q => (q.2.map fun g => groupWalk g d).flatten :=
    List.mem_map_of_mem _ hp
  exact (List.sublist_flatten_of_mem h1).trans (List.sublist_flatten_of_mem h3)

theorem groupWalk_member_mem (g : ChainGroup) (x : Iris) (hx : x ∈ groupMembers g) :
    Entity.iris x ∈ groupWalk g none := by
  cases g with
  | rrh r =>
    simp only [groupMembers] at hx
    simp only [groupWalk, rrhWalk, if_pos (show (none : Option Int) ≠ some 0 from by decide)]
    exact List.mem_append_left _ (List.mem_map_of_mem _ hx)
  | chain m e =>
    simp only [groupMembers] at hx
    simp only [groupWalk, chainWalk]
    rcases List.mem_map.mp hx with ⟨q, hq, rfl⟩
    exact List.mem_map_of_mem _ hq

theorem hubWalk_shape (h : HubState) (d : Option Int) (ent : Entity)
    (hent : ent ∈ hubWalk h d) :
    (∃ x, ent = .iris x) ∨ (∃ r, ent = .rrhGroup r) ∨ ent = .hubEnt h := by
  unfold hubWalk at hent
  by_cases hd : d ≠ some 0
  · rw [if_pos hd] at hent
    rcases List.mem_append.mp hent with hin | hone
    · rcases List.mem_flatten.mp hin with ⟨inner, hinner, hin2⟩
      rcases List.mem_map.mp hinner with ⟨p, hp, rfl⟩
      rcases List.mem_flatten.mp hin2 with ⟨gw, hgw, hin3⟩
      rcases List.mem_map.mp hgw with ⟨g, hg, rfl⟩
      cases g with
      | rrh r =>
        simp only [groupWalk, rrhWalk] at hin3
        by_cases hd2 : decrDepth d ≠ some 0
        · rw [if_pos hd2] at hin3
          rcases List.mem_append.mp hin3 with h5 | h6
          · rcases List.mem_map.mp h5 with ⟨x, _, rfl⟩
            exact Or.inl ⟨x, rfl⟩
          · rcases List.mem_singleton.mp h6 with rfl
            exact Or.inr (Or.inl ⟨r, rfl⟩)
        · rw [if_neg hd2] at hin3
          rcases List.mem_singleton.mp hin3 with rfl
          exact Or.inr (Or.inl ⟨r, rfl⟩)
      | chain m e =>
        simp only [groupWalk, chainWalk] at hin3
        rcases List.mem_map.mp hin3 with ⟨q, _, rfl⟩
        exact Or.inl ⟨q.2, rfl⟩
    · rcases List.mem_singleton.mp hone with rfl
      exact Or.inr (Or.inr rfl)
  · rw [if_neg hd] at hent
    rcases List.mem_singleton.mp hent with rfl
    exact Or.inr (Or.inr rfl)

/-- C10 counterexample: a degraded chain group holding one member.  The
group's own walk at depth 0 yields the member rather than the group, and the
unbounded hub walk never yields the chain-group entity at all, so the member
cannot be yielded before its containing group. -/
theorem C10_walk_counterexample :
    chainWalk [(some 0, cx10R)] (some 0) = [.iris cx10R] ∧
    Entity.chainGroup [(some 0, cx10R)] ∉ hubWalk cx10hub none ∧
    ¬ yieldsBefore (hubWalk cx10hub none)
        (.chainGroup [(some 0, cx10R)]) (.hubEnt cx10hub) :=
  ⟨by decide, by decide, by decide⟩

/-- C10 (amended): devices yield exactly themselves at depth 0 (irises at any
depth, validated chains and hubs at depth 0); in an unbounded hub walk every
group member precedes the hub, members of a validated chain precede their
`RRH` entity which precedes the hub; but degraded chain groups are never
yielded as entities: their walk emits only the member nodes and ignores the
depth bound. -/
theorem C10_walk_order (i : Iris) (d : Option Int) (r : RRHData) (h : HubState)
    (p : Option Int × List ChainGroup) (g : ChainGroup) (x : Iris)
    (hp : p ∈ h.chains) (hg : g ∈ p.2) (hx : x ∈ groupMembers g) :
    irisWalk i (some 0) = [Entity.iris i] ∧
    rrhWalk r (some 0) = [Entity.rrhGroup r] ∧
    hubWalk h (some 0) = [Entity.hubEnt h] ∧
    yieldsBefore (hubWalk h none) (Entity.iris x) (Entity.hubEnt h) ∧
    (∀ r', g = ChainGroup.rrh r' →
      yieldsBefore (hubWalk h none) (Entity.iris x) (Entity.rrhGroup r') ∧
      yieldsBefore (hubWalk h none) (Entity.rrhGroup r') (Entity.hubEnt h)) ∧
    (∀ ent ∈ hubWalk h d, ∀ m, ent ≠ Entity.chainGroup m) := by
  have hnz : (none : Option Int) ≠ some 0 := by decide
  refine ⟨rfl, rfl, rfl, ?_, ?_, ?_⟩
  · unfold yieldsBefore hubWalk
    rw [if_pos hnz]
    refine pair_sublist_append _ _ _ _ ?_ (List.mem_singleton.mpr rfl)
    exact (groupWalk_flatten_sublist h p g (decrDepth none) hp hg).subset
      (groupWalk_member_mem g x hx)
  · rintro r' rfl
    constructor
    · unfold yieldsBefore hubWalk
      rw [if_pos hnz]
      refine List.Sublist.trans ?_ (List.sublist_append_left _ _)
      refine List.Sublist.trans ?_ (groupWalk_flatten_sublist h p _ (decrDepth none) hp hg)
      simp only [groupMembers] at hx
      show List.Sublist [Entity.iris x, Entity.rrhGroup r'] (groupWalk (ChainGroup.rrh r') none)
      simp only [groupWalk, rrhWalk, if_pos hnz]
      exact pair_sublist_append _ _ _ _ (List.mem_map_of_mem _ hx) (List.mem_singleton.mpr rfl)
    · unfold yieldsBefore hubWalk
      rw [if_pos hnz]
      refine pair_sublist_append _ _ _ _ ?_ (List.mem_singleton.mpr rfl)
      refine (groupWalk_flatten_sublist h p _ (decrDepth none) hp hg).subset ?_
      show Entity.rrhGroup r' ∈ groupWalk (ChainGroup.rrh r') none
      simp only [groupWalk, rrhWalk, if_pos hnz]
      exact List.mem_append_right _ (List.mem_singleton.mpr rfl)
  · intro ent hent m
    rcases hubWalk_shape h d ent hent with ⟨y, rfl⟩ | ⟨r2, rfl⟩ | rfl <;> intro hc <;> cases hc

/-- Witness for C10 (amended), at a hub holding one validated chain with one
member. -/
theorem C10_walk_order_witness :
    ((some 0, [ChainGroup.rrh w10rrh]) ∈ w10hub.chains ∧
     ChainGroup.rrh w10rrh ∈ ((some 0 : Option Int), [ChainGroup.rrh w10rrh]).2 ∧
     w10n ∈ groupMembers (ChainGroup.rrh w10rrh)) ∧
    (irisWalk w10n (some 0) = [Entity.iris w10n] ∧
     rrhWalk w10rrh (some 0) = [Entity.rrhGroup w10rrh] ∧
     hubWalk w10hub (some 0) = [Entity.hubEnt w10hub] ∧
     yieldsBefore (hubWalk w10hub none) (Entity.iris w10n) (Entity.hubEnt w10hub) ∧
     (∀ r', ChainGroup.rrh w10rrh = ChainGroup.rrh r' →
       yieldsBefore (hubWalk w10hub none) (Entity.iris w10n) (Entity.rrhGroup r') ∧
       yieldsBefore (hubWalk w10hub none) (Entity.rrhGroup r') (Entity.hubEnt w10hub)) ∧
     (∀ ent ∈ hubWalk w10hub none, ∀ m, ent ≠ Entity.chainGroup m)) :=
  ⟨⟨by decide, by decide, by decide⟩,
   C10_walk_order w10n none w10rrh w10hub (some 0, [ChainGroup.rrh w10rrh])
     (ChainGroup.rrh w10rrh) w10n (by decide) (by decide) (by decide)⟩

end Pyfaros
